import Mathlib

/-!
Verification of the spec of the soterd block-DAG validation and tip-selection
engine (`vrdchain/vrdchain`, a soterd-derived code base).

The repository snapshot ships only the engine's test driver
(`blockdag/dagfullblock_test.go`), the RPC integration harness, and package
documentation; the engine itself (`ProcessBlock`, the block index, the UTXO
view, the orphan pool) is not in the snapshot.  Those components are therefore
modelled from the specification text (each such definition is marked
`Modelled from the spec:`), and the block-identifying hash computation is
translated from the test driver, which is in the snapshot.

Machine integers do not occur in the engine model: all quantities (heights,
work, values, timestamps) are unbounded naturals in both the spec and the
model.  SHA-256 words are reduced modulo 2^32 explicitly.
-/

/-! ## Basic data model (spec section 3) -/

/-- Block and transaction identifiers.  The spec identifies blocks by a
fixed-size digest; the model uses an unbounded natural as the digest value,
ordered by the usual order on naturals (the deterministic total order used
for tie-breaking). -/
abbrev Hash := Nat

/-- A reference to one transaction output: (transaction id, output index). -/
abbrev Outpoint := Hash × Nat

/-- Modelled from the spec: one transaction input.  It names the outpoint it
spends and carries the witness datum handed to the external script/signature
collaborator (`sigKey`). -/
structure TxIn where
  prevOut : Outpoint
  sigKey : Nat
deriving DecidableEq

/-- Modelled from the spec: one transaction output, a value and the locking
condition the eventual spender must satisfy. -/
structure TxOut where
  value : Nat
  lockKey : Nat
deriving DecidableEq

/-- Modelled from the spec: a transaction. -/
structure Tx where
  txid : Hash
  inputs : List TxIn
  outputs : List TxOut
deriving DecidableEq

/-- Modelled from the spec: the header fields the data model names
(timestamp, target/difficulty bits, nonce, merkle root) plus the ordered
list of parent hashes. -/
structure Header where
  parents : List Hash
  timestamp : Nat
  bits : Nat
  nonce : Nat
  merkleRoot : Nat
deriving DecidableEq

/-- Modelled from the spec: a full block: its identifying hash, header, the
declared height, and the transaction list. -/
structure Block where
  hash : Hash
  header : Header
  height : Nat
  txs : List Tx
deriving DecidableEq

/-- Modelled from the spec: one UTXO entry,
(value, locking condition, coinbase flag, creation height). -/
structure UtxoEntry where
  value : Nat
  lockKey : Nat
  isCoinbase : Bool
  height : Nat
deriving DecidableEq

/-! ## Rule-error taxonomy (spec section 7) -/

/-- Modelled from the spec: the enumerated kinds of rule violation.
`unknown-parent` is deliberately absent: the spec classifies it as the orphan
outcome, not an error. -/
inductive ErrorCode where
  | malformedStructure
  | duplicateBlock
  | badTimestamp
  | badDifficultyTarget
  | badMerkleRoot
  | doubleSpend
  | missingOrSpentInput
  | badScriptSignature
  | coinbaseMaturityViolation
  | rewardAmountViolation
  | heightMismatch
deriving DecidableEq

/-- The full enumeration of the taxonomy, for external callers comparing
codes by equality. -/
def ruleErrorTaxonomy : List ErrorCode :=
  [.malformedStructure, .duplicateBlock, .badTimestamp, .badDifficultyTarget,
   .badMerkleRoot, .doubleSpend, .missingOrSpentInput, .badScriptSignature,
   .coinbaseMaturityViolation, .rewardAmountViolation, .heightMismatch]

/-- Modelled from the spec: a rule error is a stable error code plus a
human-readable message; an immutable value. -/
structure RuleError where
  code : ErrorCode
  message : String
deriving DecidableEq

/-- Modelled from the spec: network parameter set supplied at construction. -/
structure ChainParams where
  genesisHash : Hash
  genesisBits : Nat
  maxBlockTxs : Nat
  maxTimeDrift : Nat
  coinbaseMaturity : Nat
  subsidy : Nat
deriving DecidableEq

/-! ## SHA-256 and the block-identifying hash (from the test driver)

`testRejectedNonCanonicalBlock` in `blockdag/dagfullblock_test.go` computes a
block's identifying hash as `chainhash.DoubleHashH(rawBlock[0:headerLen])`
with `headerLen` capped at 80 bytes: only the serialized header participates.
`DoubleHashH` itself lives in the repository's `chaincfg/chainhash` package,
absent from the snapshot; it is the standard double SHA-256, implemented here
over byte lists with word arithmetic carried out modulo 2^32. -/

/-- Reduce to a 32-bit word. -/
def w32 (x : Nat) : Nat := x % 4294967296

/-- 32-bit right rotation, written arithmetically. -/
def rotr32 (n x : Nat) : Nat := x / 2 ^ n + x % 2 ^ n * 2 ^ (32 - n)

/-- 32-bit bitwise complement. -/
def not32 (x : Nat) : Nat := 4294967295 - x

/-- SHA-256 Ch function. -/
def shaCh (x y z : Nat) : Nat := (x &&& y) ^^^ (not32 (w32 x) &&& z)

/-- SHA-256 Maj function. -/
def shaMaj (x y z : Nat) : Nat := (x &&& y) ^^^ (x &&& z) ^^^ (y &&& z)

/-- SHA-256 big sigma 0. -/
def bigSigma0 (x : Nat) : Nat := rotr32 2 x ^^^ rotr32 13 x ^^^ rotr32 22 x

/-- SHA-256 big sigma 1. -/
def bigSigma1 (x : Nat) : Nat := rotr32 6 x ^^^ rotr32 11 x ^^^ rotr32 25 x

/-- SHA-256 small sigma 0. -/
def smallSigma0 (x : Nat) : Nat := rotr32 7 x ^^^ rotr32 18 x ^^^ x / 2 ^ 3

/-- SHA-256 small sigma 1. -/
def smallSigma1 (x : Nat) : Nat := rotr32 17 x ^^^ rotr32 19 x ^^^ x / 2 ^ 10

/-- The 64 SHA-256 round constants. -/
def shaK : List Nat :=
  [1116352408, 1899447441, 3049323471, 3921009573, 961987163,
   1508970993, 2453635748, 2870763221, 3624381080, 310598401,
   607225278, 1426881987, 1925078388, 2162078206, 2614888103,
   3248222580, 3835390401, 4022224774, 264347078, 604807628,
   770255983, 1249150122, 1555081692, 1996064986, 2554220882,
   2821834349, 2952996808, 3210313671, 3336571891, 3584528711,
   113926993, 338241895, 666307205, 773529912, 1294757372,
   1396182291, 1695183700, 1986661051, 2177026350, 2456956037,
   2730485921, 2820302411, 3259730800, 3345764771, 3516065817,
   3600352804, 4094571909, 275423344, 430227734, 506948616,
   659060556, 883997877, 958139571, 1322822218, 1537002063,
   1747873779, 1955562222, 2024104815, 2227730452, 2361852424,
   2428436474, 2756734187, 3204031479, 3329325298]

/-- The SHA-256 initial hash state. -/
def shaH0 : List Nat :=
  [1779033703, 3144134277, 1013904242, 2773480762,
   1359893119, 2600822924, 528734635, 1541459225]

/-- Big-endian 8-byte encoding of a natural. -/
def be64 (n : Nat) : List Nat :=
  [n / 2 ^ 56 % 256, n / 2 ^ 48 % 256, n / 2 ^ 40 % 256, n / 2 ^ 32 % 256,
   n / 2 ^ 24 % 256, n / 2 ^ 16 % 256, n / 2 ^ 8 % 256, n % 256]

/-- Big-endian 4-byte encoding of a 32-bit word. -/
def be32 (n : Nat) : List Nat :=
  [n / 2 ^ 24 % 256, n / 2 ^ 16 % 256, n / 2 ^ 8 % 256, n % 256]

/-- SHA-256 padding: a 0x80 byte, zeros to 56 mod 64, then the bit length
as an 8-byte big-endian value. -/
def sha256Pad (msg : List Nat) : List Nat :=
  msg ++ 128 :: List.replicate ((119 - msg.length % 64) % 64) 0 ++ be64 (8 * msg.length)

/-- Group bytes into big-endian 32-bit words. -/
def bytesToWords : List Nat → List Nat
  | a :: b :: c :: d :: rest => (((a * 256 + b) * 256 + c) * 256 + d) :: bytesToWords rest
  | _ => []

/-- Extend a 16-word message schedule by the given number of words. -/
def extendW : Nat → List Nat → List Nat
  | 0, w => w
  | k + 1, w =>
    let n := w.length
    let x := w32 (smallSigma1 (w.getD (n - 2) 0) + w.getD (n - 7) 0 +
      smallSigma0 (w.getD (n - 15) 0) + w.getD (n - 16) 0)
    extendW k (w ++ [x])

/-- One SHA-256 compression round applied to the 8-word working state. -/
def shaRound (w : List Nat) (st : List Nat) (i : Nat) : List Nat :=
  match st with
  | [a, b, c, d, e, f, g, h] =>
    let t1 := w32 (h + bigSigma1 e + shaCh e f g + shaK.getD i 0 + w.getD i 0)
    let t2 := w32 (bigSigma0 a + shaMaj a b c)
    [w32 (t1 + t2), a, b, c, w32 (d + t1), e, f, g]
  | other => other

/-- Compress one 64-byte chunk into the running 8-word hash state. -/
def shaCompress (st : List Nat) (chunk : List Nat) : List Nat :=
  let w := extendW 48 (bytesToWords chunk)
  let fin := (List.range 64).foldl (shaRound w) st
  (st.zip fin).map fun p => w32 (p.1 + p.2)

/-- Split a byte list into the given number of 64-byte chunks. -/
def chunks64 : Nat → List Nat → List (List Nat)
  | 0, _ => []
  | k + 1, l => l.take 64 :: chunks64 k (l.drop 64)

/-- SHA-256 of a byte list, as a 32-byte digest. -/
def sha256 (msg : List Nat) : List Nat :=
  let padded := sha256Pad msg
  let fin := (chunks64 (padded.length / 64) padded).foldl shaCompress shaH0
  fin.foldr (fun wo acc => be32 wo ++ acc) []

/-- `chainhash.DoubleHashH`: double SHA-256 (the package is absent from the
snapshot; modelled from the spec's naming of the digest as double-SHA256). -/
def doubleHashH (b : List Nat) : List Nat := sha256 (sha256 b)

/-- From `testRejectedNonCanonicalBlock`: the number of leading raw-block
bytes fed to the identifying hash, capped at 80 (the header length). -/
def headerLenOf (raw : List Nat) : Nat :=
  if raw.length > 80 then 80 else raw.length

/-- From `testRejectedNonCanonicalBlock`: the hash identifying a raw block,
`DoubleHashH(raw[0:headerLen])`. -/
def blockIdentHash (raw : List Nat) : List Nat :=
  doubleHashH (raw.take (headerLenOf raw))

/-! ## UTXO view (spec section 4.2)

Modelled from the spec: the view is a snapshot/overlay abstraction over the
unspent-output set, here a total function from outpoints to optional entries.
`connectTransaction` validates every input (existence, coinbase maturity,
locking condition via the external script collaborator), removes spent
entries and adds the new outputs; it returns the removed entries as an undo
journal so that `disconnectTransaction` can restore them during a
reorganization.  Failure returns a typed rule error and the caller keeps the
original view, which is the overlay discard of the spec. -/

abbrev UtxoView := Outpoint → Option UtxoEntry

/-- The empty unspent-output set. -/
def emptyUtxoView : UtxoView := fun _ => none

/-- Modelled from the spec: spend one input.  The entry must exist (else
missing-or-spent-input), a coinbase entry must be mature, and the locking
condition is checked by the supplied script/signature checker.  Returns the
view with the entry removed, plus the removed entry. -/
def spendInput (sigOK : Nat → Nat → Bool) (maturity atHeight : Nat)
    (v : UtxoView) (i : TxIn) : Except RuleError (UtxoView × UtxoEntry) :=
  match v i.prevOut with
  | none => .error ⟨.missingOrSpentInput, "referenced output missing or already spent"⟩
  | some e =>
    if e.isCoinbase ∧ atHeight < e.height + maturity then
      .error ⟨.coinbaseMaturityViolation, "coinbase output spent before maturity"⟩
    else if sigOK e.lockKey i.sigKey then
      .ok (fun o => if o = i.prevOut then none else v o, e)
    else
      .error ⟨.badScriptSignature, "script signature verification failed"⟩

/-- Modelled from the spec: spend a transaction's inputs in declared order,
accumulating the undo journal and the total input value. -/
def spendInputs (sigOK : Nat → Nat → Bool) (maturity atHeight : Nat) :
    UtxoView → List TxIn → Except RuleError (UtxoView × List UtxoEntry × Nat)
  | v, [] => .ok (v, [], 0)
  | v, i :: is =>
    match spendInput sigOK maturity atHeight v i with
    | .error e => .error e
    | .ok (v1, e) =>
      match spendInputs sigOK maturity atHeight v1 is with
      | .error e2 => .error e2
      | .ok (v2, es, s) => .ok (v2, e :: es, s + e.value)

/-- Modelled from the spec: add a transaction's outputs to the view as fresh
entries created at the given height. -/
def addOutputs (txid : Hash) (cb : Bool) (atHeight : Nat) (outs : List TxOut)
    (v : UtxoView) : UtxoView :=
  fun o =>
    if o.1 = txid then
      match outs[o.2]? with
      | some t => some ⟨t.value, t.lockKey, cb, atHeight⟩
      | none => v o
    else v o

/-- Total output value of a transaction. -/
def txOutSum (outs : List TxOut) : Nat := (outs.map TxOut.value).sum

/-- Modelled from the spec: `connectTransaction(tx, atHeight)` — validate
every input against the view and, on success, atomically remove spent
entries and add the new ones.  A coinbase adds its outputs without resolving
inputs.  Returns the new view, the undo journal of removed entries, and the
transaction fee. -/
def connectTransaction (sigOK : Nat → Nat → Bool) (maturity : Nat)
    (v : UtxoView) (tx : Tx) (atHeight : Nat) (isCb : Bool) :
    Except RuleError (UtxoView × List UtxoEntry × Nat) :=
  if isCb then
    .ok (addOutputs tx.txid true atHeight tx.outputs v, [], 0)
  else
    match spendInputs sigOK maturity atHeight v tx.inputs with
    | .error e => .error e
    | .ok (v1, es, sIn) =>
      if txOutSum tx.outputs ≤ sIn then
        .ok (addOutputs tx.txid false atHeight tx.outputs v1, es, sIn - txOutSum tx.outputs)
      else
        .error ⟨.rewardAmountViolation, "transaction spends more than its inputs"⟩

/-- Modelled from the spec: restore previously removed entries, pairing the
inputs with the undo journal in order. -/
def restoreInputs : UtxoView → List TxIn → List UtxoEntry → UtxoView
  | v, i :: is, e :: es =>
    restoreInputs (fun o => if o = i.prevOut then some e else v o) is es
  | v, _, _ => v

/-- Modelled from the spec: `disconnectTransaction(tx)` — reverse the effect
of connecting `tx`, removing its outputs and restoring the entries its
inputs removed (the undo journal). -/
def disconnectTransaction (v : UtxoView) (tx : Tx) (undo : List UtxoEntry) : UtxoView :=
  restoreInputs
    (fun o => if o.1 = tx.txid ∧ o.2 < tx.outputs.length then none else v o)
    tx.inputs undo

/-- Modelled from the spec: connect the non-coinbase transactions of a block
in declared order, accumulating fees. -/
def connectTxsFrom (sigOK : Nat → Nat → Bool) (maturity atHeight : Nat) :
    UtxoView → List Tx → Except RuleError (UtxoView × Nat)
  | v, [] => .ok (v, 0)
  | v, tx :: rest =>
    match connectTransaction sigOK maturity v tx atHeight false with
    | .error e => .error e
    | .ok (v1, _, fee) =>
      match connectTxsFrom sigOK maturity atHeight v1 rest with
      | .error e2 => .error e2
      | .ok (v2, fees) => .ok (v2, fee + fees)

/-- Modelled from the spec: connect a whole block to the view — the coinbase
first (checked against subsidy plus collected fees), then every other
transaction in declared order. -/
def connectBlock (P : ChainParams) (sigOK : Nat → Nat → Bool)
    (v : UtxoView) (B : Block) : Except RuleError UtxoView :=
  match B.txs with
  | [] => .error ⟨.malformedStructure, "block has no coinbase transaction"⟩
  | cb :: rest =>
    match connectTxsFrom sigOK P.coinbaseMaturity B.height
        (addOutputs cb.txid true B.height cb.outputs v) rest with
    | .error e => .error e
    | .ok (v2, fees) =>
      if txOutSum cb.outputs ≤ P.subsidy + fees then .ok v2
      else .error ⟨.rewardAmountViolation, "coinbase reward exceeds subsidy plus fees"⟩

/-- Modelled from the spec: the UTXO view obtained by connecting a chain of
blocks in order, starting from a base view. -/
def utxoAlong (P : ChainParams) (sigOK : Nat → Nat → Bool) :
    UtxoView → List Block → Except RuleError UtxoView
  | v, [] => .ok v
  | v, B :: rest =>
    match connectBlock P sigOK v B with
    | .error e => .error e
    | .ok v1 => utxoAlong P sigOK v1 rest

/-! ## Block index (spec section 4.1)

Modelled from the spec: an in-memory graph of block-metadata nodes keyed by
hash.  The node keeps the full block body alongside the derived metadata
(cumulative work, status flag); the durable backing store is abstracted
away, every lookup reading the same committed data. -/

/-- Modelled from the spec: one block-index node — the block, its cumulative
chain-work, and the validity status flag. -/
structure BlockNode where
  block : Block
  cumWork : Nat
  statusValid : Bool
deriving DecidableEq

/-- Association-list lookup by hash, shared by the block index and the
orphan pool. -/
def alookup {β : Type} : List (Hash × β) → Hash → Option β
  | [], _ => none
  | (k, n) :: rest, h => if k = h then some n else alookup rest h

/-- Modelled from the spec: the block index, an arena keyed by hash. -/
abbrev BlockIndex := List (Hash × BlockNode)

/-- Work contributed by a block with the given difficulty bits: a lower
target (bits) value means more work.  The spec leaves the exact monotone
conversion to the difficulty collaborator; the model uses the standard
2^k / (target + 1) shape at 32-bit scale. -/
def workFromBits (bits : Nat) : Nat := 2 ^ 32 / (bits + 1)

/-- The nodes of the given hashes that are present in the index. -/
def nodesOf (idx : BlockIndex) (hs : List Hash) : List BlockNode :=
  hs.filterMap (alookup idx)

/-- Modelled from the spec: the deterministic strict preference between two
nodes used for tip selection — strictly greater cumulative work wins, and
ties are broken by the total order on hashes (smaller hash preferred). -/
def nodeBetter (a b : BlockNode) : Bool :=
  decide (b.cumWork < a.cumWork ∨
    (a.cumWork = b.cumWork ∧ a.block.hash < b.block.hash))

/-- Keep the preferred of two candidate nodes (the incumbent on a tie). -/
def pickBetter (a b : BlockNode) : BlockNode := if nodeBetter b a then b else a

/-- Modelled from the spec: choose, among candidate nodes, the one with the
greatest cumulative work, ties broken by the hash order. -/
def bestNode : List BlockNode → Option BlockNode
  | [] => none
  | n :: ns => some (ns.foldl pickBetter n)

/-- Greatest cumulative work among the parents present in the index. -/
def maxParentWork (idx : BlockIndex) : List Hash → Nat
  | [] => 0
  | p :: ps =>
    max (match alookup idx p with | some n => n.cumWork | none => 0)
      (maxParentWork idx ps)

/-- Greatest height among the parents present in the index. -/
def maxParentHeight (idx : BlockIndex) : List Hash → Nat
  | [] => 0
  | p :: ps =>
    max (match alookup idx p with | some n => n.block.height | none => 0)
      (maxParentHeight idx ps)

/-- Modelled from the spec: expected declared height — one more than the
greatest parent height, and zero for the parentless genesis. -/
def expectedHeight (idx : BlockIndex) (parents : List Hash) : Nat :=
  if parents = [] then 0 else 1 + maxParentHeight idx parents

/-- Modelled from the spec: walk back from a node through its chosen (that
is, heaviest, hash-tie-broken) ancestry.  Fuel-indexed; the engine supplies
the node's height, which bounds the ancestry length in a well-formed index.
Tip-first order. -/
def chainBack (idx : BlockIndex) : Nat → BlockNode → List BlockNode
  | 0, n => [n]
  | fuel + 1, n =>
    match bestNode (nodesOf idx n.block.header.parents) with
    | none => [n]
    | some p => n :: chainBack idx fuel p

/-- The chosen ancestry of a node in genesis-first order. -/
def chainNodes (idx : BlockIndex) (n : BlockNode) : List BlockNode :=
  (chainBack idx n.block.height n).reverse

/-- Modelled from the spec: the selected main view — choose the best tip by
cumulative work with the deterministic hash tie-break, then walk back
through that chain's chosen ancestry; the result is the ordered hash
sequence from genesis to the selected tip. -/
def selectMainView (idx : BlockIndex) (tips : List Hash) : List Hash :=
  match bestNode (nodesOf idx tips) with
  | none => []
  | some t => (chainNodes idx t).map (fun n => n.block.hash)

/-- The full blocks along a hash sequence, read from the index. -/
def viewBlocks (idx : BlockIndex) (view : List Hash) : List Block :=
  (view.filterMap (alookup idx)).map BlockNode.block

/-- The chosen ancestry a candidate block builds on: the chain of its
heaviest parent, genesis-first (empty for the parentless genesis). -/
def parentChainBlocks (idx : BlockIndex) (B : Block) : List Block :=
  match bestNode (nodesOf idx B.header.parents) with
  | none => []
  | some p => (chainNodes idx p).map BlockNode.block

/-- Modelled from the spec: the difficulty target required of a candidate,
computed over its chosen ancestry — the bits of the chosen parent, or the
genesis bits for a parentless block. -/
def requiredBits (P : ChainParams) (idx : BlockIndex) (parents : List Hash) : Nat :=
  match bestNode (nodesOf idx parents) with
  | some p => p.block.header.bits
  | none => P.genesisBits

/-! ## Orphan pool (spec section 4.3) -/

/-- Modelled from the spec: the orphan pool holds full block bodies keyed by
their own hash. -/
def orphanAdd (os : List (Hash × Block)) (B : Block) : List (Hash × Block) :=
  match alookup os B.hash with
  | some _ => os
  | none => (B.hash, B) :: os

/-! ## Validation pipeline and the engine (spec sections 4.6, 4.7, 6) -/

/-- Modelled from the spec: the merkle commitment to the block's transaction
list (a fold over the transaction ids; transactions are identified by txid
in the model). -/
def merkleRootOf (txs : List Tx) : Nat :=
  txs.foldl (fun a t => a * 31 + t.txid + 1) 7

/-- Modelled from the spec: structural checks — merkle root matches the
committed transaction list; transaction count within protocol limits (and a
coinbase present); at least one parent reference except for genesis; no
duplicate parent references. -/
def checkBlockSanity (P : ChainParams) (B : Block) : Option RuleError :=
  if B.header.merkleRoot ≠ merkleRootOf B.txs then
    some ⟨.badMerkleRoot, "merkle root does not match transaction list"⟩
  else if B.txs.length = 0 ∨ B.txs.length > P.maxBlockTxs then
    some ⟨.malformedStructure, "transaction count out of protocol limits"⟩
  else if B.header.parents = [] ∧ B.hash ≠ P.genesisHash then
    some ⟨.malformedStructure, "no parent reference"⟩
  else if ¬ B.header.parents.Nodup then
    some ⟨.malformedStructure, "duplicate parent reference"⟩
  else
    none

/-- Modelled from the spec: every parent hash is a known, valid block. -/
def parentsKnownValid (idx : BlockIndex) (parents : List Hash) : Bool :=
  parents.all fun p =>
    match alookup idx p with
    | some n => n.statusValid
    | none => false

/-- Insertion sort, for the ancestor-timestamp median. -/
def insertSorted (x : Nat) : List Nat → List Nat
  | [] => [x]
  | y :: ys => if x ≤ y then x :: y :: ys else y :: insertSorted x ys

/-- The median of a list of timestamps (0 for an empty list). -/
def medianOf (l : List Nat) : Nat :=
  (l.foldr insertSorted []).getD ((l.length - 1) / 2) 0

/-- The timestamps of the parents present in the index. -/
def parentTimes (idx : BlockIndex) (parents : List Hash) : List Nat :=
  (nodesOf idx parents).map fun n => n.block.header.timestamp

/-- Modelled from the spec: contextual checks (parents already known to be
valid) — declared height equals one more than the greatest parent height;
timestamp at most a bounded drift ahead of the median-time source's adjusted
time and strictly above the parents' median timestamp; difficulty target
meets the required value over the chosen ancestry. -/
def checkContextual (P : ChainParams) (adjTime : Nat) (idx : BlockIndex)
    (B : Block) : Option RuleError :=
  if B.height ≠ expectedHeight idx B.header.parents then
    some ⟨.heightMismatch, "declared height does not match parents"⟩
  else if B.header.timestamp > adjTime + P.maxTimeDrift then
    some ⟨.badTimestamp, "timestamp too far ahead of adjusted network time"⟩
  else if B.header.parents ≠ [] ∧
      B.header.timestamp ≤ medianOf (parentTimes idx B.header.parents) then
    some ⟨.badTimestamp, "timestamp not above ancestor median"⟩
  else if ¬ B.header.bits ≤ requiredBits P idx B.header.parents then
    some ⟨.badDifficultyTarget, "difficulty target easier than required"⟩
  else
    none

/-- Modelled from the spec: the tagged outcome of a block submission, with
exactly the four cases orphan / accepted-extends-main-view /
accepted-side-block / rejected. -/
inductive Outcome where
  | orphan
  | acceptedMain
  | acceptedSide
  | rejected (e : RuleError)
deriving DecidableEq

/-- The `(isMainView, isOrphan, error)` triple of the external
`processBlock` interface, as a projection of the tagged outcome. -/
def outcomeTriple : Outcome → Bool × Bool × Option RuleError
  | .orphan => (false, true, none)
  | .acceptedMain => (true, false, none)
  | .acceptedSide => (false, false, none)
  | .rejected e => (false, false, some e)

/-- Modelled from the spec: the mutable engine state guarded by the writer
section — block index, orphan pool, tip set, selected main view, and the
committed UTXO view. -/
structure DagState where
  index : BlockIndex
  orphans : List (Hash × Block)
  tips : List Hash
  mainView : List Hash
  utxo : UtxoView

/-- Modelled from the spec: the signature-verification cache consulted to
skip redundant cryptographic checks — a hit skips the verifier call. -/
def checkSigWithCache (verify : Nat → Nat → Bool)
    (cache : List (Nat × Nat)) : Nat → Nat → Bool :=
  fun lockKey sigKey =>
    if (lockKey, sigKey) ∈ cache then true else verify lockKey sigKey

/-- The index node built for a freshly accepted block: cumulative work is
the block's own work contribution plus the heaviest parent's cumulative
work, and the node is marked valid. -/
def acceptNode (s : DagState) (B : Block) : BlockNode :=
  ⟨B, workFromBits B.header.bits + maxParentWork s.index B.header.parents, true⟩

/-- The block index after a fresh acceptance. -/
def acceptIndex (s : DagState) (B : Block) : BlockIndex :=
  (B.hash, acceptNode s B) :: s.index

/-- The tip set after a fresh acceptance: the new block becomes a tip and
its parents stop being tips. -/
def acceptTips (s : DagState) (B : Block) : List Hash :=
  B.hash :: s.tips.filter (fun t => decide (t ∉ B.header.parents))

/-- The main view recomputed from scratch after a fresh acceptance. -/
def acceptView (s : DagState) (B : Block) : List Hash :=
  selectMainView (acceptIndex s B) (acceptTips s B)

/-- The whole engine state after a fresh acceptance committing the given
recomputed UTXO view. -/
def acceptState (s : DagState) (B : Block) (v1 : UtxoView) : DagState :=
  ⟨acceptIndex s B, s.orphans, acceptTips s B, acceptView s B, v1⟩

/-- Modelled from the spec: the single entry point of the engine, with the
script checker abstracted as one function.  Stages in strict order:
byte-identical duplicates are a no-op returning the original outcome and a
same-hash different-content insertion fails; structural checks; the orphan
classification when a parent is not known valid; contextual checks;
transaction validation by connecting the block onto the UTXO view of its
chosen ancestry; on success the node is inserted, the tip set updated, the
main view recomputed from scratch and the UTXO view recomputed along it —
any failure leaves the state exactly as it was. -/
def processBlockWith (P : ChainParams) (sigOK : Nat → Nat → Bool)
    (adjTime : Nat) (s : DagState) (B : Block) : DagState × Outcome :=
  match alookup s.index B.hash with
  | some n =>
    if n.block = B then
      (s, if B.hash ∈ s.mainView then .acceptedMain else .acceptedSide)
    else
      (s, .rejected ⟨.duplicateBlock, "hash already present with different content"⟩)
  | none =>
    match checkBlockSanity P B with
    | some e => (s, .rejected e)
    | none =>
      if parentsKnownValid s.index B.header.parents then
        match checkContextual P adjTime s.index B with
        | some e => (s, .rejected e)
        | none =>
          match utxoAlong P sigOK emptyUtxoView (parentChainBlocks s.index B) with
          | .error e => (s, .rejected e)
          | .ok baseV =>
            match connectBlock P sigOK baseV B with
            | .error e => (s, .rejected e)
            | .ok _ =>
              match utxoAlong P sigOK emptyUtxoView
                  (viewBlocks (acceptIndex s B) (acceptView s B)) with
              | .error e => (s, .rejected e)
              | .ok v1 =>
                (acceptState s B v1,
                 if B.hash ∈ acceptView s B then .acceptedMain else .acceptedSide)
      else
        ({ s with orphans := orphanAdd s.orphans B }, .orphan)

/-- Modelled from the spec: `processBlock(block, flags)` with the production
flag set — the engine entry point, given the external script verifier and
the signature-verification cache. -/
def processBlock (P : ChainParams) (verify : Nat → Nat → Bool)
    (cache : List (Nat × Nat)) (adjTime : Nat) (s : DagState) (B : Block) :
    DagState × Outcome :=
  processBlockWith P (checkSigWithCache verify cache) adjTime s B

/-! ## Concrete network and blocks used as witnesses -/

/-- A script verifier that accepts everything (witness-level stand-in for
the external script collaborator). -/
def verifyAll : Nat → Nat → Bool := fun _ _ => true

/-- Witness genesis coinbase. -/
def gTx : Tx := ⟨11, [], [⟨50, 1⟩]⟩

/-- Witness genesis block. -/
def G0 : Block := ⟨100, ⟨[], 1, 3, 0, merkleRootOf [gTx]⟩, 0, [gTx]⟩

/-- Witness network parameters. -/
def P0 : ChainParams := ⟨100, 3, 100, 7200, 2, 50⟩

/-- The empty engine state. -/
def s0 : DagState := ⟨[], [], [], [], emptyUtxoView⟩

/-- The engine state after accepting the witness genesis. -/
def s1 : DagState := (processBlock P0 verifyAll [] 0 s0 G0).1

/-- Witness coinbase for height-1 blocks. -/
def cTx : Tx := ⟨21, [], [⟨50, 2⟩]⟩

/-- A valid height-1 child of the witness genesis. -/
def B1 : Block := ⟨101, ⟨[100], 2, 3, 0, merkleRootOf [cTx]⟩, 1, [cTx]⟩

/-- A block with an unknown parent that also violates a structural rule
(duplicate parent references). -/
def BOrphanBad : Block := ⟨102, ⟨[7, 7], 2, 3, 0, merkleRootOf [cTx]⟩, 1, [cTx]⟩

/-- A block with a known parent, a wrong declared height, and a wrong merkle
root. -/
def BHeightBad : Block := ⟨103, ⟨[100], 2, 3, 0, 999999⟩, 7, [cTx]⟩

/-- A block whose merkle commitment does not match its transaction list. -/
def BMerkleBad : Block := ⟨104, ⟨[100], 2, 3, 0, 0⟩, 1, [cTx]⟩

/-- A structurally sound block whose only parent is unknown. -/
def BOrph : Block := ⟨105, ⟨[7], 2, 3, 0, merkleRootOf [cTx]⟩, 1, [cTx]⟩

/-- A block whose only flaw is a wrong declared height. -/
def BHeightOnly : Block := ⟨106, ⟨[100], 2, 3, 0, merkleRootOf [cTx]⟩, 5, [cTx]⟩

/-- A base UTXO view holding the single outpoint `(11, 0)`. -/
def vBase : UtxoView := fun o => if o = (11, 0) then some ⟨50, 1, false, 0⟩ else none

/-- A transaction spending `(11, 0)` into one new output. -/
def spendTx : Tx := ⟨31, [⟨(11, 0), 9⟩], [⟨40, 3⟩]⟩

/-- `vBase` with the spent outpoint removed. -/
def vSpent : UtxoView := fun o => if o = (11, 0) then none else vBase o

/-- The view after connecting `spendTx` to `vBase`. -/
def vAfter : UtxoView := addOutputs 31 false 1 [⟨40, 3⟩] vSpent


/-- A node for the witness genesis under its own hash. -/
def wNode100 : BlockNode := ⟨G0, 7, true⟩

/-- A node for the witness height-1 block under its own hash. -/
def wNode101 : BlockNode := ⟨B1, 9, true⟩

/-- A concrete two-entry block index. -/
def wIdxA : BlockIndex := [(100, wNode100), (101, wNode101)]

/-- The same block set stored in the opposite order. -/
def wIdxB : BlockIndex := [(101, wNode101), (100, wNode100)]

/-- The number of index entries carrying a given hash key. -/
def countKeys (idx : BlockIndex) (h : Hash) : Nat :=
  (idx.filter (fun p => decide (p.1 = h))).length

/-! ## Theorems: UTXO connect/disconnect -/

/-- Characterization of a successful single-input spend. -/
theorem spendInput_char {g : Nat → Nat → Bool} {m h : Nat} {v : UtxoView}
    {i : TxIn} {v1 : UtxoView} {e : UtxoEntry}
    (hc : spendInput g m h v i = .ok (v1, e)) :
    v i.prevOut = some e ∧ v1 = fun o => if o = i.prevOut then none else v o := by
  unfold spendInput at hc
  split at hc
  · exact Except.noConfusion hc
  · next e0 hv =>
    split at hc
    · exact Except.noConfusion hc
    · split at hc
      · simp only [Except.ok.injEq, Prod.mk.injEq] at hc
        exact ⟨hc.2 ▸ hv, hc.1.symm⟩
      · exact Except.noConfusion hc

/-- Decomposition of a successful spend of a nonempty input list. -/
theorem spendInputs_cons {g : Nat → Nat → Bool} {m h : Nat} {v : UtxoView}
    {i : TxIn} {is : List TxIn} {v2 : UtxoView} {es : List UtxoEntry} {s : Nat}
    (hc : spendInputs g m h v (i :: is) = .ok (v2, es, s)) :
    ∃ e v1 es1 s1, spendInput g m h v i = .ok (v1, e) ∧
      spendInputs g m h v1 is = .ok (v2, es1, s1) ∧ es = e :: es1 ∧ s = s1 + e.value := by
  unfold spendInputs at hc
  split at hc
  · exact Except.noConfusion hc
  · next v1 e h1 =>
    split at hc
    · exact Except.noConfusion hc
    · next v2x esx sx h2 =>
      simp only [Except.ok.injEq, Prod.mk.injEq] at hc
      obtain ⟨rfl, rfl, rfl⟩ := hc
      exact ⟨e, v1, esx, sx, h1, h2, rfl, rfl⟩

/-- Spending never resurrects an absent entry. -/
theorem spendInputs_none_mono {g : Nat → Nat → Bool} {m h : Nat}
    {is : List TxIn} {v v2 : UtxoView} {es : List UtxoEntry} {s : Nat}
    {o : Outpoint} (hc : spendInputs g m h v is = .ok (v2, es, s))
    (ho : v o = none) : v2 o = none := by
  induction is generalizing v es s with
  | nil =>
    unfold spendInputs at hc
    simp only [Except.ok.injEq, Prod.mk.injEq] at hc
    exact hc.1 ▸ ho
  | cons i is ih =>
    obtain ⟨e, v1, es1, s1, h1, h2, rfl, rfl⟩ := spendInputs_cons hc
    obtain ⟨-, rfl⟩ := spendInput_char h1
    exact ih h2 (by rw [ho]; exact ite_self none)

/-- Spending leaves the view untouched away from the spent outpoints. -/
theorem spendInputs_unspent {g : Nat → Nat → Bool} {m h : Nat}
    {is : List TxIn} {v v2 : UtxoView} {es : List UtxoEntry} {s : Nat}
    {o : Outpoint} (hc : spendInputs g m h v is = .ok (v2, es, s))
    (ho : ∀ i ∈ is, i.prevOut ≠ o) : v2 o = v o := by
  induction is generalizing v es s with
  | nil =>
    unfold spendInputs at hc
    simp only [Except.ok.injEq, Prod.mk.injEq] at hc
    exact hc.1 ▸ rfl
  | cons i is ih =>
    obtain ⟨e, v1, es1, s1, h1, h2, rfl, rfl⟩ := spendInputs_cons hc
    obtain ⟨-, rfl⟩ := spendInput_char h1
    have hne : o ≠ i.prevOut := fun habs => ho i (List.mem_cons_self i is) habs.symm
    have hstep := ih h2 (fun j hj => ho j (List.mem_cons_of_mem i hj))
    rw [hstep, if_neg hne]

/-- Every successfully spent outpoint was present in the starting view. -/
theorem spendInputs_spent_isSome {g : Nat → Nat → Bool} {m h : Nat}
    {is : List TxIn} {v v2 : UtxoView} {es : List UtxoEntry} {s : Nat}
    (hc : spendInputs g m h v is = .ok (v2, es, s)) :
    ∀ i ∈ is, v i.prevOut ≠ none := by
  induction is generalizing v es s with
  | nil => intro i hi; cases hi
  | cons i is ih =>
    obtain ⟨e, v1, es1, s1, h1, h2, rfl, rfl⟩ := spendInputs_cons hc
    obtain ⟨hsome, rfl⟩ := spendInput_char h1
    intro j hj
    rcases List.mem_cons.mp hj with rfl | hj
    · rw [hsome]; exact Option.noConfusion
    · have hj1 := ih h2 j hj
      by_cases hop : j.prevOut = i.prevOut
      · rw [if_pos hop] at hj1; exact absurd rfl hj1
      · rw [if_neg hop] at hj1; exact hj1

/-- Restoring the undo journal of a successful spend rebuilds the original
view at the spent outpoints and leaves everything else as given. -/
theorem restoreInputs_char {g : Nat → Nat → Bool} {m h : Nat}
    {is : List TxIn} {v v2 : UtxoView} {es : List UtxoEntry} {s : Nat}
    (hc : spendInputs g m h v is = .ok (v2, es, s)) (W : UtxoView) (o : Outpoint) :
    ((∃ i ∈ is, i.prevOut = o) → restoreInputs W is es o = v o) ∧
    ((∀ i ∈ is, i.prevOut ≠ o) → restoreInputs W is es o = W o) := by
  induction is generalizing v es s W with
  | nil =>
    unfold spendInputs at hc
    simp only [Except.ok.injEq, Prod.mk.injEq] at hc
    obtain ⟨-, h2, -⟩ := hc
    subst h2
    exact ⟨fun hex => absurd hex (by simp), fun _ => rfl⟩
  | cons i is ih =>
    obtain ⟨e, v1, es1, s1, h1, h2, rfl, rfl⟩ := spendInputs_cons hc
    obtain ⟨hsome, rfl⟩ := spendInput_char h1
    have hstep : restoreInputs W (i :: is) (e :: es1) o =
        restoreInputs (fun q => if q = i.prevOut then some e else W q) is es1 o := rfl
    constructor
    · rintro ⟨j, hj, rfl⟩
      rw [hstep]
      by_cases hmem : ∃ k ∈ is, k.prevOut = j.prevOut
      · have hres := (ih h2 (fun q => if q = i.prevOut then some e else W q)).1 hmem
        rw [hres]
        obtain ⟨k, hk, hkeq⟩ := hmem
        have hkS := spendInputs_spent_isSome h2 k hk
        rw [hkeq] at hkS
        have hne : j.prevOut ≠ i.prevOut := by
          intro habs
          rw [if_pos habs] at hkS
          exact hkS rfl
        rw [if_neg hne]
      · have hji : j = i := by
          rcases List.mem_cons.mp hj with rfl | hjmem
          · rfl
          · exact absurd ⟨j, hjmem, rfl⟩ hmem
        subst hji
        have hres := (ih h2 (fun q => if q = j.prevOut then some e else W q)).2
          (fun k hk hke => hmem ⟨k, hk, hke⟩)
        rw [hres, hsome]
        simp
    · intro hall
      rw [hstep]
      have hres := (ih h2 (fun q => if q = i.prevOut then some e else W q)).2
        (fun k hk => hall k (List.mem_cons_of_mem i hk))
      rw [hres]
      have hne : o ≠ i.prevOut :=
        fun habs => hall i (List.mem_cons_self i is) habs.symm
      rw [if_neg hne]

/-- Adding outputs changes nothing outside the transaction's output range. -/
theorem addOutputs_off {txid : Hash} {cb : Bool} {h : Nat} {outs : List TxOut}
    {v : UtxoView} {o : Outpoint} (ho : ¬(o.1 = txid ∧ o.2 < outs.length)) :
    addOutputs txid cb h outs v o = v o := by
  unfold addOutputs
  by_cases h1 : o.1 = txid
  · have h2 : ¬ o.2 < outs.length := fun hl => ho ⟨h1, hl⟩
    rw [if_pos h1, List.getElem?_eq_none (not_lt.mp h2)]
  · rw [if_neg h1]

/-- Characterization of a successful non-coinbase transaction connect. -/
theorem connectTransaction_char {g : Nat → Nat → Bool} {m : Nat} {v : UtxoView}
    {tx : Tx} {h : Nat} {v1 : UtxoView} {undo : List UtxoEntry} {fee : Nat}
    (hc : connectTransaction g m v tx h false = .ok (v1, undo, fee)) :
    ∃ vs sIn, spendInputs g m h v tx.inputs = .ok (vs, undo, sIn) ∧
      txOutSum tx.outputs ≤ sIn ∧ fee = sIn - txOutSum tx.outputs ∧
      v1 = addOutputs tx.txid false h tx.outputs vs := by
  unfold connectTransaction at hc
  rw [if_neg (by exact Bool.false_ne_true)] at hc
  split at hc
  · exact Except.noConfusion hc
  · next vs us si hs =>
    split at hc
    · next hle =>
      simp only [Except.ok.injEq, Prod.mk.injEq] at hc
      obtain ⟨rfl, rfl, rfl⟩ := hc
      exact ⟨vs, si, hs, hle, rfl, rfl⟩
    · exact Except.noConfusion hc

/-! ## Theorems: engine branch behaviour -/

/-- A byte-identical duplicate is a no-op returning the stored block's
current classification. -/
theorem pb_dup_same {P : ChainParams} {g : Nat → Nat → Bool} {t : Nat}
    {s : DagState} {B : Block} {n : BlockNode}
    (hl : alookup s.index B.hash = some n) (hb : n.block = B) :
    processBlockWith P g t s B =
      (s, if B.hash ∈ s.mainView then .acceptedMain else .acceptedSide) := by
  unfold processBlockWith
  rw [hl]
  simp only [if_pos hb]

/-- A same-hash different-content submission is rejected as a duplicate. -/
theorem pb_dup_diff {P : ChainParams} {g : Nat → Nat → Bool} {t : Nat}
    {s : DagState} {B : Block} {n : BlockNode}
    (hl : alookup s.index B.hash = some n) (hb : n.block ≠ B) :
    processBlockWith P g t s B =
      (s, .rejected ⟨.duplicateBlock, "hash already present with different content"⟩) := by
  unfold processBlockWith
  rw [hl]
  simp only [if_neg hb]

/-- A structural failure rejects with the structural error and no state
change. -/
theorem pb_sanity_fail {P : ChainParams} {g : Nat → Nat → Bool} {t : Nat}
    {s : DagState} {B : Block} {e : RuleError}
    (hl : alookup s.index B.hash = none) (hs : checkBlockSanity P B = some e) :
    processBlockWith P g t s B = (s, .rejected e) := by
  unfold processBlockWith
  rw [hl, hs]

/-- A block passing the duplicate and structural checks whose parents are
not all known valid is classified an orphan and added to the orphan pool. -/
theorem pb_orphan_step {P : ChainParams} {g : Nat → Nat → Bool} {t : Nat}
    {s : DagState} {B : Block}
    (hl : alookup s.index B.hash = none) (hs : checkBlockSanity P B = none)
    (hp : parentsKnownValid s.index B.header.parents = false) :
    processBlockWith P g t s B =
      ({ s with orphans := orphanAdd s.orphans B }, .orphan) := by
  unfold processBlockWith
  rw [hl, hs]
  simp only [hp, Bool.false_eq_true, if_false]

/-- A contextual failure rejects with the contextual error and no state
change. -/
theorem pb_contextual_fail {P : ChainParams} {g : Nat → Nat → Bool} {t : Nat}
    {s : DagState} {B : Block} {e : RuleError}
    (hl : alookup s.index B.hash = none) (hs : checkBlockSanity P B = none)
    (hp : parentsKnownValid s.index B.header.parents = true)
    (hcx : checkContextual P t s.index B = some e) :
    processBlockWith P g t s B = (s, .rejected e) := by
  unfold processBlockWith
  rw [hl, hs]
  simp only [hp, if_true, hcx]

/-- A failure while rebuilding the ancestry base view rejects with that
error and no state change. -/
theorem pb_base_fail {P : ChainParams} {g : Nat → Nat → Bool} {t : Nat}
    {s : DagState} {B : Block} {e : RuleError}
    (hl : alookup s.index B.hash = none) (hs : checkBlockSanity P B = none)
    (hp : parentsKnownValid s.index B.header.parents = true)
    (hcx : checkContextual P t s.index B = none)
    (hu : utxoAlong P g emptyUtxoView (parentChainBlocks s.index B) = .error e) :
    processBlockWith P g t s B = (s, .rejected e) := by
  unfold processBlockWith
  rw [hl, hs]
  simp only [hp, if_true, hcx, hu]

/-- A transaction-validation failure rejects with that error and no state
change. -/
theorem pb_connect_fail {P : ChainParams} {g : Nat → Nat → Bool} {t : Nat}
    {s : DagState} {B : Block} {e : RuleError} {baseV : UtxoView}
    (hl : alookup s.index B.hash = none) (hs : checkBlockSanity P B = none)
    (hp : parentsKnownValid s.index B.header.parents = true)
    (hcx : checkContextual P t s.index B = none)
    (hu : utxoAlong P g emptyUtxoView (parentChainBlocks s.index B) = .ok baseV)
    (hcb : connectBlock P g baseV B = .error e) :
    processBlockWith P g t s B = (s, .rejected e) := by
  unfold processBlockWith
  rw [hl, hs]
  simp only [hp, if_true, hcx, hu, hcb]

/-- A failure while recomputing the UTXO view of the new main view rolls
back to the prior state and returns the error. -/
theorem pb_reorg_fail {P : ChainParams} {g : Nat → Nat → Bool} {t : Nat}
    {s : DagState} {B : Block} {e : RuleError} {baseV w : UtxoView}
    (hl : alookup s.index B.hash = none) (hs : checkBlockSanity P B = none)
    (hp : parentsKnownValid s.index B.header.parents = true)
    (hcx : checkContextual P t s.index B = none)
    (hu : utxoAlong P g emptyUtxoView (parentChainBlocks s.index B) = .ok baseV)
    (hcb : connectBlock P g baseV B = .ok w)
    (hv : utxoAlong P g emptyUtxoView
        (viewBlocks (acceptIndex s B) (acceptView s B)) = .error e) :
    processBlockWith P g t s B = (s, .rejected e) := by
  unfold processBlockWith
  rw [hl, hs]
  simp only [hp, if_true, hcx, hu, hcb, hv]

/-- A block passing every stage is inserted, the tip set updated, the main
view recomputed and the new UTXO view committed. -/
theorem pb_accept {P : ChainParams} {g : Nat → Nat → Bool} {t : Nat}
    {s : DagState} {B : Block} {baseV w v1 : UtxoView}
    (hl : alookup s.index B.hash = none) (hs : checkBlockSanity P B = none)
    (hp : parentsKnownValid s.index B.header.parents = true)
    (hcx : checkContextual P t s.index B = none)
    (hu : utxoAlong P g emptyUtxoView (parentChainBlocks s.index B) = .ok baseV)
    (hcb : connectBlock P g baseV B = .ok w)
    (hv : utxoAlong P g emptyUtxoView
        (viewBlocks (acceptIndex s B) (acceptView s B)) = .ok v1) :
    processBlockWith P g t s B =
      (acceptState s B v1,
       if B.hash ∈ acceptView s B then .acceptedMain else .acceptedSide) := by
  unfold processBlockWith
  rw [hl, hs]
  simp only [hp, if_true, hcx, hu, hcb, hv]

/-- Exhaustive case analysis of one `processBlock` call: it is a rejection
leaving the state unchanged, an orphan classification touching only the
orphan pool, a byte-identical-duplicate no-op, or a fresh acceptance with
the committed recomputed state. -/
theorem pb_cases (P : ChainParams) (g : Nat → Nat → Bool) (t : Nat)
    (s : DagState) (B : Block) :
    (∃ e, processBlockWith P g t s B = (s, .rejected e)) ∨
    (processBlockWith P g t s B = ({ s with orphans := orphanAdd s.orphans B }, .orphan) ∧
      alookup s.index B.hash = none ∧ checkBlockSanity P B = none ∧
      parentsKnownValid s.index B.header.parents = false) ∨
    (∃ n, alookup s.index B.hash = some n ∧ n.block = B ∧
      processBlockWith P g t s B =
        (s, if B.hash ∈ s.mainView then .acceptedMain else .acceptedSide)) ∨
    (∃ v1, alookup s.index B.hash = none ∧ checkBlockSanity P B = none ∧
      parentsKnownValid s.index B.header.parents = true ∧
      checkContextual P t s.index B = none ∧
      utxoAlong P g emptyUtxoView (viewBlocks (acceptIndex s B) (acceptView s B)) = .ok v1 ∧
      processBlockWith P g t s B =
        (acceptState s B v1,
         if B.hash ∈ acceptView s B then .acceptedMain else .acceptedSide)) := by
  cases hl : alookup s.index B.hash with
  | some n =>
    by_cases hb : n.block = B
    · exact .inr (.inr (.inl ⟨n, rfl, hb, pb_dup_same hl hb⟩))
    · exact .inl ⟨_, pb_dup_diff hl hb⟩
  | none =>
    cases hs : checkBlockSanity P B with
    | some e => exact .inl ⟨e, pb_sanity_fail hl hs⟩
    | none =>
      cases hp : parentsKnownValid s.index B.header.parents with
      | false => exact .inr (.inl ⟨pb_orphan_step hl hs hp, rfl, rfl, rfl⟩)
      | true =>
        cases hcx : checkContextual P t s.index B with
        | some e => exact .inl ⟨e, pb_contextual_fail hl hs hp hcx⟩
        | none =>
          cases hu : utxoAlong P g emptyUtxoView (parentChainBlocks s.index B) with
          | error e => exact .inl ⟨e, pb_base_fail hl hs hp hcx hu⟩
          | ok baseV =>
            cases hcb : connectBlock P g baseV B with
            | error e => exact .inl ⟨e, pb_connect_fail hl hs hp hcx hu hcb⟩
            | ok w =>
              cases hv : utxoAlong P g emptyUtxoView
                  (viewBlocks (acceptIndex s B) (acceptView s B)) with
              | error e => exact .inl ⟨e, pb_reorg_fail hl hs hp hcx hu hcb hv⟩
              | ok v1 =>
                exact .inr (.inr (.inr ⟨v1, rfl, rfl, rfl, rfl, rfl,
                  pb_accept hl hs hp hcx hu hcb hv⟩))

/-! ## Theorems: index and orphan-pool bookkeeping -/

/-- A hash that fails lookup occurs in no entry. -/
theorem alookup_none_not_mem {β : Type} {idx : List (Hash × β)} {h : Hash}
    (hl : alookup idx h = none) : ∀ p ∈ idx, p.1 ≠ h := by
  induction idx with
  | nil => intro p hp; cases hp
  | cons q rest ih =>
    unfold alookup at hl
    intro p hp
    rcases List.mem_cons.mp hp with rfl | hp
    · intro habs
      rw [if_pos habs] at hl
      exact Option.noConfusion hl
    · by_cases hq : q.1 = h
      · rw [if_pos hq] at hl; exact Option.noConfusion hl
      · rw [if_neg hq] at hl
        exact ih hl p hp

/-- A hash that fails lookup has key count zero. -/
theorem alookup_none_countKeys {idx : BlockIndex} {h : Hash}
    (hl : alookup idx h = none) : countKeys idx h = 0 := by
  unfold countKeys
  rw [List.length_eq_zero, List.filter_eq_nil]
  intro p hp
  simpa using alookup_none_not_mem hl p hp

/-- Distinct keys bound the count of any key by one. -/
theorem nodup_countKeys_le_one {idx : BlockIndex} {h : Hash}
    (hnd : (idx.map Prod.fst).Nodup) : countKeys idx h ≤ 1 := by
  induction idx with
  | nil => exact Nat.zero_le 1
  | cons q rest ih =>
    rw [List.map_cons, List.nodup_cons] at hnd
    unfold countKeys
    by_cases hq : q.1 = h
    · rw [List.filter_cons_of_pos (by simpa using hq)]
      have hz : countKeys rest h = 0 := by
        unfold countKeys
        rw [List.length_eq_zero, List.filter_eq_nil]
        intro p hp hkey
        exact hnd.1 (hq ▸ (by simpa using hkey) ▸ List.mem_map_of_mem Prod.fst hp)
      unfold countKeys at hz
      rw [List.length_cons, hz]
    · rw [List.filter_cons_of_neg (by simpa using hq)]
      exact ih hnd.2

/-- Fresh insertion preserves distinct keys. -/
theorem nodup_insert_fresh {idx : BlockIndex} {h : Hash} {n : BlockNode}
    (hnd : (idx.map Prod.fst).Nodup) (hl : alookup idx h = none) :
    (((h, n) :: idx).map Prod.fst).Nodup := by
  rw [List.map_cons, List.nodup_cons]
  refine ⟨fun habs => ?_, hnd⟩
  obtain ⟨p, hp, hkey⟩ := List.mem_map.mp habs
  exact alookup_none_not_mem hl p hp hkey

/-- Lookup finds a freshly prepended entry. -/
theorem alookup_cons_self {β : Type} {rest : List (Hash × β)} {h : Hash} {x : β} :
    alookup ((h, x) :: rest) h = some x := by
  unfold alookup
  rw [if_pos rfl]

/-- The orphan pool keeps an entry under the added block's hash. -/
theorem orphanAdd_mem {os : List (Hash × Block)} {B : Block} :
    ∃ b, alookup (orphanAdd os B) B.hash = some b := by
  unfold orphanAdd
  cases hl : alookup os B.hash with
  | some b => exact ⟨b, hl⟩
  | none => exact ⟨B, alookup_cons_self⟩

/-- Adding a block whose hash is absent stores that very block. -/
theorem orphanAdd_fresh {os : List (Hash × Block)} {B : Block}
    (hl : alookup os B.hash = none) :
    alookup (orphanAdd os B) B.hash = some B := by
  unfold orphanAdd
  rw [hl]
  exact alookup_cons_self

/-- Re-adding a block already pooled changes nothing. -/
theorem orphanAdd_idem (os : List (Hash × Block)) (B : Block) :
    orphanAdd (orphanAdd os B) B = orphanAdd os B := by
  obtain ⟨b, hb⟩ := @orphanAdd_mem os B
  conv_lhs => rw [orphanAdd]
  rw [hb]

/-- A failed lookup is preserved by the case analysis in every claim about
an unknown parent: unknown parents make `parentsKnownValid` false. -/
theorem parentsKnownValid_false_of_unknown {idx : BlockIndex} {ps : List Hash}
    {p : Hash} (hmem : p ∈ ps) (hl : alookup idx p = none) :
    parentsKnownValid idx ps = false := by
  unfold parentsKnownValid
  rw [List.all_eq_false]
  refine ⟨p, hmem, ?_⟩
  rw [hl]
  exact Bool.false_ne_true

/-- Every error code belongs to the enumerated taxonomy. -/
theorem errorCode_mem_taxonomy (c : ErrorCode) : c ∈ ruleErrorTaxonomy := by
  cases c <;> simp [ruleErrorTaxonomy]

/-- Rejection leaves the engine state untouched. -/
theorem pb_rejected_inv {P : ChainParams} {g : Nat → Nat → Bool} {t : Nat}
    {s s2 : DagState} {B : Block} {e : RuleError}
    (h : processBlockWith P g t s B = (s2, .rejected e)) : s2 = s := by
  rcases pb_cases P g t s B with ⟨e0, heq⟩ | ⟨heq, -⟩ | ⟨n, -, -, heq⟩ |
    ⟨v1, -, -, -, -, -, heq⟩
  · rw [heq] at h
    injection h with h1 h2
    exact h1.symm
  · rw [heq] at h
    injection h with h1 h2
    exact Outcome.noConfusion h2
  · rw [heq] at h
    injection h with h1 h2
    exact h1.symm
  · rw [heq] at h
    injection h with h1 h2
    split at h2
    · exact Outcome.noConfusion h2
    · exact Outcome.noConfusion h2

/-! ## Claim theorems -/

/-- C1: `ProcessBlock` is transactional — whenever a submission is rejected
with a typed `RuleError`, the block index, UTXO view, tip set (and the whole
engine state) are exactly what they were before the call; no durable write
of the call survives. -/
theorem processBlock_rejection_transactional (P : ChainParams)
    (verify : Nat → Nat → Bool) (cache : List (Nat × Nat)) (t : Nat)
    (s s2 : DagState) (B : Block) (e : RuleError)
    (h : processBlock P verify cache t s B = (s2, .rejected e)) :
    s2.index = s.index ∧ s2.utxo = s.utxo ∧ s2.tips = s.tips ∧
    s2.mainView = s.mainView ∧ s2.orphans = s.orphans ∧ s2 = s := by
  have hst : s2 = s := pb_rejected_inv h
  subst hst
  exact ⟨rfl, rfl, rfl, rfl, rfl, rfl⟩

/-- Witness for C1: a concrete rejected submission (bad merkle root) leaves
the concrete empty state untouched. -/
theorem processBlock_rejection_transactional_witness :
    (processBlock P0 verifyAll [] 0 s0 BMerkleBad).2 =
      .rejected ⟨.badMerkleRoot, "merkle root does not match transaction list"⟩ ∧
    (processBlock P0 verifyAll [] 0 s0 BMerkleBad).1 = s0 := by
  have h : processBlock P0 verifyAll [] 0 s0 BMerkleBad =
      ((processBlock P0 verifyAll [] 0 s0 BMerkleBad).1,
        .rejected ⟨.badMerkleRoot, "merkle root does not match transaction list"⟩) := rfl
  exact ⟨congrArg Prod.snd h,
    (processBlock_rejection_transactional P0 verifyAll [] 0 s0 _ BMerkleBad _ h).2.2.2.2.2⟩

/-- C2 (amended): a block that is not a duplicate and passes the structural
stage, with at least one parent hash absent from the block index, is
classified an orphan: `isOrphan` is true, the error is nil, the block is
stored in the orphan pool and retrievable by its hash, and index, tip set,
main view and UTXO view are untouched (no further validation). -/
theorem processBlock_orphan_outcome (P : ChainParams)
    (verify : Nat → Nat → Bool) (cache : List (Nat × Nat)) (t : Nat)
    (s : DagState) (B : Block)
    (hl : alookup s.index B.hash = none)
    (hs : checkBlockSanity P B = none)
    (hp : ∃ p ∈ B.header.parents, alookup s.index p = none) :
    processBlock P verify cache t s B =
      ({ s with orphans := orphanAdd s.orphans B }, .orphan) ∧
    outcomeTriple (processBlock P verify cache t s B).2 = (false, true, none) ∧
    (processBlock P verify cache t s B).1.index = s.index ∧
    (processBlock P verify cache t s B).1.tips = s.tips ∧
    (processBlock P verify cache t s B).1.mainView = s.mainView ∧
    (processBlock P verify cache t s B).1.utxo = s.utxo ∧
    (∃ b, alookup (processBlock P verify cache t s B).1.orphans B.hash = some b) ∧
    (alookup s.orphans B.hash = none →
      alookup (processBlock P verify cache t s B).1.orphans B.hash = some B) := by
  obtain ⟨p, hpm, hpl⟩ := hp
  have hp0 := parentsKnownValid_false_of_unknown hpm hpl
  have heq : processBlock P verify cache t s B =
      ({ s with orphans := orphanAdd s.orphans B }, .orphan) :=
    pb_orphan_step hl hs hp0
  rw [heq]
  exact ⟨rfl, rfl, rfl, rfl, rfl, rfl, orphanAdd_mem, fun ho => orphanAdd_fresh ho⟩

/-- Witness for C2: a concrete structurally sound block with an unknown
parent is pooled as an orphan. -/
theorem processBlock_orphan_outcome_witness :
    processBlock P0 verifyAll [] 0 s0 BOrph =
      ({ s0 with orphans := orphanAdd s0.orphans BOrph }, .orphan) ∧
    alookup (processBlock P0 verifyAll [] 0 s0 BOrph).1.orphans BOrph.hash =
      some BOrph := by
  have h := processBlock_orphan_outcome P0 verifyAll [] 0 s0 BOrph
    (by decide) (by decide) ⟨7, by decide, by decide⟩
  exact ⟨h.1, h.2.2.2.2.2.2.2 (by decide)⟩

/-- Counterexample for C2 as frozen: a block with an unknown parent that
also violates a structural rule (duplicate parent references) is rejected
with a typed error — `isOrphan` is false and the error is not nil, not the
orphan outcome the claim promises for every unknown-parent block. -/
theorem processBlock_orphan_claim_counterexample :
    7 ∈ BOrphanBad.header.parents ∧ alookup s0.index 7 = none ∧
    outcomeTriple (processBlock P0 verifyAll [] 0 s0 BOrphanBad).2 =
      (false, false, some ⟨.malformedStructure, "duplicate parent reference"⟩) := by
  refine ⟨by decide, by decide, by decide⟩

/-- C7: every rejection surfaces as a `RuleError` — an error-code/message
pair whose code belongs to the enumerated taxonomy (which is complete, so
codes are comparable by equality against it) — and the engine state is left
intact, so the node keeps processing further blocks; rule violations are
returned, never fatal. -/
theorem processBlock_rejection_ruleerror (P : ChainParams)
    (verify : Nat → Nat → Bool) (cache : List (Nat × Nat)) (t : Nat)
    (s s2 : DagState) (B : Block) (e : RuleError)
    (h : processBlock P verify cache t s B = (s2, .rejected e)) :
    (∃ c msg, e = ⟨c, msg⟩ ∧ c ∈ ruleErrorTaxonomy) ∧
    (∀ c : ErrorCode, c ∈ ruleErrorTaxonomy) ∧
    s2 = s := by
  refine ⟨⟨e.code, e.message, ?_, errorCode_mem_taxonomy e.code⟩,
    errorCode_mem_taxonomy, pb_rejected_inv h⟩
  cases e
  rfl

/-- Witness for C7: the concrete duplicate-parent rejection carries a
taxonomy code and leaves the state intact. -/
theorem processBlock_rejection_ruleerror_witness :
    (∃ c msg,
      (⟨.malformedStructure, "duplicate parent reference"⟩ : RuleError) = ⟨c, msg⟩ ∧
      c ∈ ruleErrorTaxonomy) ∧
    (processBlock P0 verifyAll [] 0 s0 BOrphanBad).1 = s0 := by
  have h : processBlock P0 verifyAll [] 0 s0 BOrphanBad =
      ((processBlock P0 verifyAll [] 0 s0 BOrphanBad).1,
        .rejected ⟨.malformedStructure, "duplicate parent reference"⟩) := rfl
  have hr := processBlock_rejection_ruleerror P0 verifyAll [] 0 s0 _ BOrphanBad _ h
  exact ⟨hr.1, hr.2.2⟩

/-- C8: the outcome of a submission is exactly one of the four cases
orphan / accepted-extends-main-view / accepted-side-block / rejected, and
the reported triple never combines the orphan flag with a non-nil error
(nor the main-view flag with an error or the orphan flag). -/
theorem processBlock_outcome_exactly_four (P : ChainParams)
    (verify : Nat → Nat → Bool) (cache : List (Nat × Nat)) (t : Nat)
    (s : DagState) (B : Block) :
    ((processBlock P verify cache t s B).2 = .orphan ∨
     (processBlock P verify cache t s B).2 = .acceptedMain ∨
     (processBlock P verify cache t s B).2 = .acceptedSide ∨
     (∃ e, (processBlock P verify cache t s B).2 = .rejected e)) ∧
    ((outcomeTriple (processBlock P verify cache t s B).2).2.1 = true →
      (outcomeTriple (processBlock P verify cache t s B).2).2.2 = none) ∧
    ((outcomeTriple (processBlock P verify cache t s B).2).1 = true →
      (outcomeTriple (processBlock P verify cache t s B).2).2.2 = none ∧
      (outcomeTriple (processBlock P verify cache t s B).2).2.1 = false) := by
  cases h : (processBlock P verify cache t s B).2 with
  | orphan => exact ⟨.inl rfl, by simp [outcomeTriple], by simp [outcomeTriple]⟩
  | acceptedMain =>
    exact ⟨.inr (.inl rfl), by simp [outcomeTriple], by simp [outcomeTriple]⟩
  | acceptedSide =>
    exact ⟨.inr (.inr (.inl rfl)), by simp [outcomeTriple], by simp [outcomeTriple]⟩
  | rejected e =>
    exact ⟨.inr (.inr (.inr ⟨e, rfl⟩)), by simp [outcomeTriple], by simp [outcomeTriple]⟩

/-- Witness for C8: the four-way classification at a concrete call. -/
theorem processBlock_outcome_exactly_four_witness :
    (processBlock P0 verifyAll [] 0 s0 G0).2 = .orphan ∨
    (processBlock P0 verifyAll [] 0 s0 G0).2 = .acceptedMain ∨
    (processBlock P0 verifyAll [] 0 s0 G0).2 = .acceptedSide ∨
    (∃ e, (processBlock P0 verifyAll [] 0 s0 G0).2 = .rejected e) :=
  (processBlock_outcome_exactly_four P0 verifyAll [] 0 s0 G0).1

/-- Prepending an entry with the queried key adds one to its count. -/
theorem countKeys_cons {idx : BlockIndex} {h : Hash} {n : BlockNode} :
    countKeys ((h, n) :: idx) h = countKeys idx h + 1 := by
  unfold countKeys
  rw [List.filter_cons_of_pos (by simp), List.length_cons]

/-- C3: `ProcessBlock` is idempotent on byte-identical input — resubmitting
the same block right away returns the same outcome triple, the second call
is a state no-op, and the index holds at most one entry under the block's
hash. -/
theorem processBlock_idempotent (P : ChainParams)
    (verify : Nat → Nat → Bool) (cache : List (Nat × Nat)) (t : Nat)
    (s : DagState) (B : Block) (hnd : (s.index.map Prod.fst).Nodup) :
    (processBlock P verify cache t (processBlock P verify cache t s B).1 B).2 =
      (processBlock P verify cache t s B).2 ∧
    outcomeTriple
        (processBlock P verify cache t (processBlock P verify cache t s B).1 B).2 =
      outcomeTriple (processBlock P verify cache t s B).2 ∧
    (processBlock P verify cache t (processBlock P verify cache t s B).1 B).1 =
      (processBlock P verify cache t s B).1 ∧
    countKeys (processBlock P verify cache t s B).1.index B.hash ≤ 1 := by
  simp only [processBlock]
  rcases pb_cases P (checkSigWithCache verify cache) t s B with
    ⟨e, heq⟩ | ⟨heq, hl, hs, hp⟩ | ⟨n, hl, hb, heq⟩ | ⟨v1, hl, hs, hp, hcx, hv, heq⟩
  · have hfst : (processBlockWith P (checkSigWithCache verify cache) t s B).1 = s := by
      rw [heq]
    rw [hfst]
    exact ⟨rfl, rfl, hfst, nodup_countKeys_le_one hnd⟩
  · have hfst : (processBlockWith P (checkSigWithCache verify cache) t s B).1 =
        { s with orphans := orphanAdd s.orphans B } := by rw [heq]
    have heq2 : processBlockWith P (checkSigWithCache verify cache) t
        { s with orphans := orphanAdd s.orphans B } B =
        ({ s with orphans := orphanAdd (orphanAdd s.orphans B) B }, .orphan) :=
      pb_orphan_step hl hs hp
    have hsame : ({ s with orphans := orphanAdd (orphanAdd s.orphans B) B } : DagState) =
        { s with orphans := orphanAdd s.orphans B } := by
      rw [orphanAdd_idem]
    rw [hfst, heq2, hsame, heq]
    exact ⟨rfl, rfl, rfl, nodup_countKeys_le_one hnd⟩
  · have hfst : (processBlockWith P (checkSigWithCache verify cache) t s B).1 = s := by
      rw [heq]
    rw [hfst]
    exact ⟨rfl, rfl, hfst, nodup_countKeys_le_one hnd⟩
  · have hfst : (processBlockWith P (checkSigWithCache verify cache) t s B).1 =
        acceptState s B v1 := by rw [heq]
    have hl2 : alookup (acceptState s B v1).index B.hash = some (acceptNode s B) :=
      alookup_cons_self
    have heq2 : processBlockWith P (checkSigWithCache verify cache) t
        (acceptState s B v1) B =
        (acceptState s B v1,
          if B.hash ∈ (acceptState s B v1).mainView then .acceptedMain
          else .acceptedSide) :=
      pb_dup_same hl2 rfl
    rw [hfst, heq2, heq]
    refine ⟨rfl, rfl, rfl, ?_⟩
    have hcount : countKeys (acceptState s B v1).index B.hash =
        countKeys s.index B.hash + 1 := countKeys_cons
    rw [hcount, alookup_none_countKeys hl]

/-- A passing contextual check certifies the declared height. -/
theorem checkContextual_none_height {P : ChainParams} {t : Nat}
    {idx : BlockIndex} {B : Block} (hcx : checkContextual P t idx B = none) :
    B.height = expectedHeight idx B.header.parents := by
  unfold checkContextual at hcx
  by_cases h1 : B.height ≠ expectedHeight idx B.header.parents
  · rw [if_pos h1] at hcx
    exact Option.noConfusion hcx
  · exact not_ne_iff.mp h1

/-- A wrong declared height fails the contextual check with the
height-mismatch error. -/
theorem checkContextual_height_fail {P : ChainParams} {t : Nat}
    {idx : BlockIndex} {B : Block}
    (hne : B.height ≠ expectedHeight idx B.header.parents) :
    checkContextual P t idx B =
      some ⟨.heightMismatch, "declared height does not match parents"⟩ := by
  unfold checkContextual
  rw [if_pos hne]

/-- C4 (amended): every freshly accepted block with parents satisfies
height(B) = 1 + max(parent heights); and a block passing the duplicate,
structural and parent-known stages whose declared height violates the
equation is rejected with the height-mismatch `RuleError`.  (A violating
block failing an earlier stage is rejected with that earlier stage's error,
and one with unknown parents is an orphan instead.) -/
theorem processBlock_height_rule (P : ChainParams)
    (verify : Nat → Nat → Bool) (cache : List (Nat × Nat)) (t : Nat)
    (s : DagState) (B : Block) :
    ((alookup s.index B.hash = none →
      ((processBlock P verify cache t s B).2 = .acceptedMain ∨
       (processBlock P verify cache t s B).2 = .acceptedSide) →
      B.height = expectedHeight s.index B.header.parents ∧
      (B.header.parents ≠ [] →
        B.height = 1 + maxParentHeight s.index B.header.parents))) ∧
    (alookup s.index B.hash = none → checkBlockSanity P B = none →
      parentsKnownValid s.index B.header.parents = true →
      B.height ≠ expectedHeight s.index B.header.parents →
      processBlock P verify cache t s B =
        (s, .rejected ⟨.heightMismatch, "declared height does not match parents"⟩)) := by
  constructor
  · intro hl hacc
    rcases pb_cases P (checkSigWithCache verify cache) t s B with
      ⟨e, heq⟩ | ⟨heq, -, -, -⟩ | ⟨n, hl2, -, -⟩ | ⟨v1, -, -, -, hcx, -, -⟩
    · have h2 : (processBlock P verify cache t s B).2 = .rejected e := by
        show (processBlockWith P (checkSigWithCache verify cache) t s B).2 = _
        rw [heq]
      rcases hacc with ha | ha <;> rw [h2] at ha <;> exact Outcome.noConfusion ha
    · have h2 : (processBlock P verify cache t s B).2 = .orphan := by
        show (processBlockWith P (checkSigWithCache verify cache) t s B).2 = _
        rw [heq]
      rcases hacc with ha | ha <;> rw [h2] at ha <;> exact Outcome.noConfusion ha
    · rw [hl] at hl2
      exact Option.noConfusion hl2
    · have hh := checkContextual_none_height hcx
      refine ⟨hh, fun hne => ?_⟩
      rw [hh]
      unfold expectedHeight
      rw [if_neg hne]
  · intro hl hs hp hne
    exact pb_contextual_fail hl hs hp (checkContextual_height_fail hne)

/-- Witness for C4: a concrete known-parent block whose only flaw is a
wrong declared height is rejected with height-mismatch. -/
theorem processBlock_height_rule_witness :
    processBlock P0 verifyAll [] 0 s1 BHeightOnly =
      (s1, .rejected ⟨.heightMismatch, "declared height does not match parents"⟩) :=
  (processBlock_height_rule P0 verifyAll [] 0 s1 BHeightOnly).2
    (by decide) (by decide) (by decide) (by decide)

/-- Counterexample for C4 as frozen: a block violating the height equation
that also has a wrong merkle root is rejected with the merkle error, not
the height-mismatch error the claim promises for every violating block. -/
theorem processBlock_height_claim_counterexample :
    BHeightBad.height ≠ 1 + maxParentHeight s1.index BHeightBad.header.parents ∧
    BHeightBad.header.parents ≠ [] ∧
    (processBlock P0 verifyAll [] 0 s1 BHeightBad).2 =
      .rejected ⟨.badMerkleRoot, "merkle root does not match transaction list"⟩ := by
  refine ⟨by decide, by decide, by decide⟩

/-- The tip preference never prefers a node to itself. -/
theorem nodeBetter_irrefl (n : BlockNode) : nodeBetter n n = false := by
  simp [nodeBetter]

/-- The tip preference is transitive. -/
theorem nodeBetter_trans {a b c : BlockNode}
    (h1 : nodeBetter a b = true) (h2 : nodeBetter b c = true) :
    nodeBetter a c = true := by
  simp only [nodeBetter, decide_eq_true_eq] at h1 h2 ⊢
  rcases h1 with h1 | ⟨h1a, h1b⟩ <;> rcases h2 with h2 | ⟨h2a, h2b⟩
  · exact .inl (Nat.lt_trans h2 h1)
  · exact .inl (h2a.symm ▸ h1)
  · exact .inl (h1a.symm ▸ h2)
  · exact .inr ⟨h1a.trans h2a, Nat.lt_trans h1b h2b⟩

/-- If `b` does not beat `n` but beats `r`, then `n` beats `r`: the key
order (cumulative work, then hash) is total. -/
theorem nodeBetter_total_trans {b n r : BlockNode}
    (h1 : nodeBetter b n = false) (h2 : nodeBetter b r = true) :
    nodeBetter n r = true := by
  simp only [nodeBetter, decide_eq_true_eq, decide_eq_false_iff_not] at h1 h2 ⊢
  rw [not_or, not_and] at h1
  rcases h2 with h2 | ⟨h2a, h2b⟩
  · exact .inl (Nat.lt_of_lt_of_le h2 (Nat.le_of_not_lt h1.1))
  · by_cases hw : b.cumWork = n.cumWork
    · exact .inr ⟨hw.symm.trans h2a,
        Nat.lt_of_le_of_lt (Nat.le_of_not_lt (h1.2 hw)) h2b⟩
    · exact .inl (h2a ▸ Nat.lt_of_le_of_ne (Nat.le_of_not_lt h1.1) hw)

/-- The running fold of `pickBetter` stays inside the candidate pool. -/
theorem foldl_pickBetter_mem (rest : List BlockNode) (n : BlockNode) :
    rest.foldl pickBetter n = n ∨ rest.foldl pickBetter n ∈ rest := by
  induction rest generalizing n with
  | nil => exact .inl rfl
  | cons b rest ih =>
    have hstep : (b :: rest).foldl pickBetter n = rest.foldl pickBetter (pickBetter n b) :=
      rfl
    rw [hstep]
    rcases ih (pickBetter n b) with he | hm
    · rw [he]
      unfold pickBetter
      by_cases hb : nodeBetter b n = true
      · rw [if_pos hb]
        exact .inr (List.mem_cons_self b rest)
      · rw [if_neg hb]
        exact .inl rfl
    · exact .inr (List.mem_cons_of_mem b hm)

/-- No candidate beats the running fold of `pickBetter`. -/
theorem foldl_pickBetter_best (rest : List BlockNode) (n : BlockNode) :
    nodeBetter n (rest.foldl pickBetter n) = false ∧
    ∀ m ∈ rest, nodeBetter m (rest.foldl pickBetter n) = false := by
  induction rest generalizing n with
  | nil => exact ⟨nodeBetter_irrefl n, fun m hm => absurd hm (List.not_mem_nil m)⟩
  | cons b rest ih =>
    have hstep : (b :: rest).foldl pickBetter n = rest.foldl pickBetter (pickBetter n b) :=
      rfl
    obtain ⟨hhead, hall⟩ := ih (pickBetter n b)
    by_cases hb : nodeBetter b n = true
    · have hpick : pickBetter n b = b := by unfold pickBetter; rw [if_pos hb]
      rw [hpick] at hhead hall
      have hn : nodeBetter n (rest.foldl pickBetter b) = false := by
        by_contra habs
        rw [Bool.not_eq_false] at habs
        rw [nodeBetter_trans hb habs] at hhead
        exact Bool.noConfusion hhead
      refine ⟨by rw [hstep, hpick]; exact hn, fun m hm => ?_⟩
      rw [hstep, hpick]
      rcases List.mem_cons.mp hm with rfl | hm
      · exact hhead
      · exact hall m hm
    · have hb0 : nodeBetter b n = false := Bool.not_eq_true _ |>.mp hb
      have hpick : pickBetter n b = n := by unfold pickBetter; rw [if_neg hb]
      rw [hpick] at hhead hall
      have hbf : nodeBetter b (rest.foldl pickBetter n) = false := by
        by_contra habs
        rw [Bool.not_eq_false] at habs
        rw [nodeBetter_total_trans hb0 habs] at hhead
        exact Bool.noConfusion hhead
      refine ⟨by rw [hstep, hpick]; exact hhead, fun m hm => ?_⟩
      rw [hstep, hpick]
      rcases List.mem_cons.mp hm with rfl | hm
      · exact hbf
      · exact hall m hm

/-- The chosen best node is a candidate that no candidate beats: the
deterministic argmax by cumulative work with the hash tie-break. -/
theorem bestNode_spec {ns : List BlockNode} {t : BlockNode}
    (h : bestNode ns = some t) :
    t ∈ ns ∧ ∀ m ∈ ns, nodeBetter m t = false := by
  cases ns with
  | nil => exact Option.noConfusion h
  | cons n rest =>
    unfold bestNode at h
    injection h with h
    subst h
    obtain ⟨hhead, hall⟩ := foldl_pickBetter_best rest n
    constructor
    · rcases foldl_pickBetter_mem rest n with he | hm
      · rw [he]; exact List.mem_cons_self n rest
      · exact List.mem_cons_of_mem n hm
    · intro m hm
      rcases List.mem_cons.mp hm with rfl | hm
      · exact hhead
      · exact hall m hm

/-- A successful lookup names an entry of the list. -/
theorem alookup_some_mem {β : Type} {idx : List (Hash × β)} {h : Hash} {n : β}
    (hl : alookup idx h = some n) : (h, n) ∈ idx := by
  induction idx with
  | nil => exact Option.noConfusion hl
  | cons q rest ih =>
    unfold alookup at hl
    by_cases hq : q.1 = h
    · rw [if_pos hq] at hl
      injection hl with hl
      cases q with
      | mk a b =>
        cases hq
        cases hl
        exact List.mem_cons_self _ _
    · rw [if_neg hq] at hl
      exact List.mem_cons_of_mem q (ih hl)

/-- Under distinct keys, every entry of the list is found by lookup. -/
theorem alookup_mem_nodup {β : Type} {idx : List (Hash × β)} {h : Hash} {n : β}
    (hnd : (idx.map Prod.fst).Nodup) (hm : (h, n) ∈ idx) :
    alookup idx h = some n := by
  induction idx with
  | nil => exact absurd hm (List.not_mem_nil _)
  | cons q rest ih =>
    rw [List.map_cons, List.nodup_cons] at hnd
    unfold alookup
    rcases List.mem_cons.mp hm with heq | hm2
    · rw [← heq, if_pos rfl]
    · by_cases hq : q.1 = h
      · exfalso
        apply hnd.1
        rw [hq]
        exact List.mem_map_of_mem Prod.fst hm2
      · rw [if_neg hq]
        exact ih hnd.2 hm2

/-- A key held by no entry fails lookup. -/
theorem alookup_none_of_not_mem {β : Type} {idx : List (Hash × β)} {h : Hash}
    (hnm : ∀ p ∈ idx, p.1 ≠ h) : alookup idx h = none := by
  induction idx with
  | nil => rfl
  | cons q rest ih =>
    unfold alookup
    rw [if_neg (hnm q (List.mem_cons_self q rest))]
    exact ih (fun p hp => hnm p (List.mem_cons_of_mem q hp))

/-- Under distinct keys, lookup sees only the entry set: permuted indices
answer every query identically. -/
theorem alookup_perm_eq {β : Type} {idx1 idx2 : List (Hash × β)}
    (hperm : idx1.Perm idx2) (hnd : (idx1.map Prod.fst).Nodup) :
    ∀ h, alookup idx1 h = alookup idx2 h := by
  intro h
  have hnd2 : (idx2.map Prod.fst).Nodup := ((hperm.map Prod.fst).nodup_iff).mp hnd
  cases hl : alookup idx1 h with
  | some n =>
    exact (alookup_mem_nodup hnd2 (hperm.mem_iff.mp (alookup_some_mem hl))).symm
  | none =>
    have hnm := alookup_none_not_mem hl
    exact (alookup_none_of_not_mem (fun p hp => hnm p (hperm.mem_iff.mpr hp))).symm

/-- The best-node choice is empty exactly on the empty candidate list. -/
theorem bestNode_eq_none_iff {ns : List BlockNode} :
    bestNode ns = none ↔ ns = [] := by
  cases ns with
  | nil => exact ⟨fun _ => rfl, fun _ => rfl⟩
  | cons a rest =>
    exact ⟨fun h => Option.noConfusion h, fun h => List.noConfusion h⟩

/-- The chosen-ancestry walk reads the index only through lookup. -/
theorem chainBack_congr {idx1 idx2 : BlockIndex}
    (hfun : alookup idx1 = alookup idx2) :
    ∀ (fuel : Nat) (n : BlockNode), chainBack idx1 fuel n = chainBack idx2 fuel n := by
  intro fuel
  induction fuel with
  | zero => intro n; rfl
  | succ f ih =>
    intro n
    unfold chainBack
    rw [show nodesOf idx1 n.block.header.parents = nodesOf idx2 n.block.header.parents
      from by unfold nodesOf; rw [hfun]]
    cases hb : bestNode (nodesOf idx2 n.block.header.parents) with
    | none => rfl
    | some p =>
      show n :: chainBack idx1 f p = n :: chainBack idx2 f p
      rw [ih p]

/-- Convergence: two engines holding the same block set — index lists that
are permutations of each other with distinct keys, every node stored under
its own block hash — and the same tip set in any order select identical
main views. -/
theorem selectMainView_perm_eq {idx1 idx2 : BlockIndex} {tips1 tips2 : List Hash}
    (hperm : idx1.Perm idx2) (hnd : (idx1.map Prod.fst).Nodup)
    (htips : tips1.Perm tips2)
    (hwf : ∀ p ∈ idx1, p.2.block.hash = p.1) :
    selectMainView idx1 tips1 = selectMainView idx2 tips2 := by
  have hfun : alookup idx1 = alookup idx2 := funext (alookup_perm_eq hperm hnd)
  have hcand : (nodesOf idx1 tips1).Perm (nodesOf idx2 tips2) := by
    unfold nodesOf
    rw [← hfun]
    exact htips.filterMap (alookup idx1)
  have hself : ∀ m ∈ nodesOf idx1 tips1, alookup idx1 m.block.hash = some m := by
    intro m hm
    obtain ⟨t, ht, hts⟩ := List.mem_filterMap.mp hm
    rw [hwf (t, m) (alookup_some_mem hts)]
    exact hts
  unfold selectMainView
  cases hb1 : bestNode (nodesOf idx1 tips1) with
  | none =>
    have hnil1 : nodesOf idx1 tips1 = [] := bestNode_eq_none_iff.mp hb1
    have hnil2 : nodesOf idx2 tips2 = [] := by
      rw [List.eq_nil_iff_forall_not_mem]
      intro m hm
      have hm1 := hcand.mem_iff.mpr hm
      rw [hnil1] at hm1
      exact List.not_mem_nil m hm1
    have hb2 : bestNode (nodesOf idx2 tips2) = none := by rw [hnil2]; rfl
    rw [hb2]
  | some b1 =>
    have hb1mem := (bestNode_spec hb1).1
    have hb2some : ∃ b2, bestNode (nodesOf idx2 tips2) = some b2 := by
      cases hn2 : nodesOf idx2 tips2 with
      | nil =>
        exfalso
        have hm2 := hcand.mem_iff.mp hb1mem
        rw [hn2] at hm2
        exact List.not_mem_nil b1 hm2
      | cons a rest => exact ⟨rest.foldl pickBetter a, rfl⟩
    obtain ⟨b2, hb2⟩ := hb2some
    have hb2mem := (bestNode_spec hb2).1
    have h12 : nodeBetter b1 b2 = false :=
      (bestNode_spec hb2).2 b1 (hcand.mem_iff.mp hb1mem)
    have h21 : nodeBetter b2 b1 = false :=
      (bestNode_spec hb1).2 b2 (hcand.mem_iff.mpr hb2mem)
    have hbeq : b1 = b2 := by
      simp only [nodeBetter, decide_eq_false_iff_not] at h12 h21
      rw [not_or, not_and] at h12 h21
      have hweq : b1.cumWork = b2.cumWork :=
        Nat.le_antisymm (Nat.le_of_not_lt h12.1) (Nat.le_of_not_lt h21.1)
      have hheq : b1.block.hash = b2.block.hash :=
        Nat.le_antisymm (Nat.le_of_not_lt (h21.2 hweq.symm))
          (Nat.le_of_not_lt (h12.2 hweq))
      have e1 : alookup idx1 b1.block.hash = some b1 := hself b1 hb1mem
      have e2 : alookup idx1 b2.block.hash = some b2 :=
        hself b2 (hcand.mem_iff.mpr hb2mem)
      rw [← hheq, e1] at e2
      exact Option.some.inj e2
    rw [hb2]
    show (chainNodes idx1 b1).map (fun n => n.block.hash) =
      (chainNodes idx2 b2).map (fun n => n.block.hash)
    rw [← hbeq]
    unfold chainNodes
    rw [chainBack_congr hfun b1.block.height b1]

/-- C5: tip selection is a deterministic pure function of the block set —
the best tip is the argmax of cumulative work with the deterministic hash
tie-break (no candidate beats it); two engines holding the same block set
(index lists that are permutations of each other, keys distinct, nodes
stored under their own block hash) and the same tip set in any order
compute identical main views; and whenever a call changes the tip set the
committed main view is the from-scratch recomputation `selectMainView` of
the new index and tip set, never a patch of the old view. -/
theorem tip_selection_deterministic (P : ChainParams)
    (verify : Nat → Nat → Bool) (cache : List (Nat × Nat)) (t : Nat)
    (s s2 : DagState) (B : Block) (r : Outcome)
    (h : processBlock P verify cache t s B = (s2, r)) :
    (s2.tips ≠ s.tips → s2.mainView = selectMainView s2.index s2.tips) ∧
    (∀ (idx1 idx2 : BlockIndex) (tips1 tips2 : List Hash),
      idx1.Perm idx2 → (idx1.map Prod.fst).Nodup → tips1.Perm tips2 →
      (∀ p ∈ idx1, p.2.block.hash = p.1) →
      selectMainView idx1 tips1 = selectMainView idx2 tips2) ∧
    (∀ ns m tb, bestNode ns = some tb → m ∈ ns →
      tb ∈ ns ∧ nodeBetter m tb = false) := by
  unfold processBlock at h
  refine ⟨?_, ?_, ?_⟩
  · intro htips
    rcases pb_cases P (checkSigWithCache verify cache) t s B with
      ⟨e, heq⟩ | ⟨heq, -, -, -⟩ | ⟨n, -, -, heq⟩ | ⟨v1, -, -, -, -, -, heq⟩
    · rw [heq] at h
      injection h with h1 h2
      rw [← h1] at htips
      exact absurd rfl htips
    · rw [heq] at h
      injection h with h1 h2
      rw [← h1] at htips
      exact absurd rfl htips
    · rw [heq] at h
      injection h with h1 h2
      rw [← h1] at htips
      exact absurd rfl htips
    · rw [heq] at h
      injection h with h1 h2
      rw [← h1]
      rfl
  · intro idx1 idx2 tips1 tips2 hperm hnd htips hwf
    exact selectMainView_perm_eq hperm hnd htips hwf
  · intro ns m tb hbest hm
    exact ⟨(bestNode_spec hbest).1, (bestNode_spec hbest).2 m hm⟩

/-- Witness for C5: accepting the concrete genesis changes the tip set and
commits exactly the recomputed main view, and two concrete engines holding
the same two blocks as oppositely ordered index and tip lists select the
same main view. -/
theorem tip_selection_deterministic_witness :
    ((processBlock P0 verifyAll [] 0 s0 G0).1.tips ≠ s0.tips ∧
     (processBlock P0 verifyAll [] 0 s0 G0).1.mainView =
       selectMainView (processBlock P0 verifyAll [] 0 s0 G0).1.index
         (processBlock P0 verifyAll [] 0 s0 G0).1.tips) ∧
    selectMainView wIdxA [100, 101] = selectMainView wIdxB [101, 100] := by
  have h : processBlock P0 verifyAll [] 0 s0 G0 =
      ((processBlock P0 verifyAll [] 0 s0 G0).1,
        (processBlock P0 verifyAll [] 0 s0 G0).2) := rfl
  have hne : (processBlock P0 verifyAll [] 0 s0 G0).1.tips ≠ s0.tips := by decide
  have hthm := tip_selection_deterministic P0 verifyAll [] 0 s0 _ G0 _ h
  exact ⟨⟨hne, hthm.1 hne⟩,
    hthm.2.1 wIdxA wIdxB [100, 101] [101, 100]
      (by decide) (by decide) (by decide) (by decide)⟩

/-- A sound cache (only verified keys) makes the cached checker literally
the bare verifier. -/
theorem checkSigWithCache_sound_eq {verify : Nat → Nat → Bool}
    {cache : List (Nat × Nat)}
    (hsound : ∀ p ∈ cache, verify p.1 p.2 = true) :
    checkSigWithCache verify cache = checkSigWithCache verify [] := by
  funext lk sk
  unfold checkSigWithCache
  by_cases hmem : (lk, sk) ∈ cache
  · rw [if_pos hmem, if_neg (List.not_mem_nil (lk, sk))]
    exact (hsound (lk, sk) hmem).symm
  · rw [if_neg hmem, if_neg (List.not_mem_nil (lk, sk))]

/-- C9: the signature-verification cache is not a correctness dependency —
with any cache holding only keys the verifier accepts, a submission
produces byte-for-byte the same state and the same outcome (hence the same
accept/orphan/reject classification and the same `RuleError` on rejection)
as with an empty cache. -/
theorem sigcache_not_correctness_dependency (P : ChainParams)
    (verify : Nat → Nat → Bool) (cache : List (Nat × Nat)) (t : Nat)
    (s : DagState) (B : Block)
    (hsound : ∀ p ∈ cache, verify p.1 p.2 = true) :
    processBlock P verify cache t s B = processBlock P verify [] t s B ∧
    (processBlock P verify cache t s B).2 = (processBlock P verify [] t s B).2 := by
  unfold processBlock
  rw [checkSigWithCache_sound_eq hsound]
  exact ⟨rfl, rfl⟩

/-- Witness for C9: a concrete populated sound cache and the empty cache
agree on a concrete submission. -/
theorem sigcache_not_correctness_dependency_witness :
    processBlock P0 verifyAll [(1, 2)] 0 s0 G0 =
      processBlock P0 verifyAll [] 0 s0 G0 :=
  (sigcache_not_correctness_dependency P0 verifyAll [(1, 2)] 0 s0 G0
    (by decide)).1

/-- Spent outpoints are absent from the final view of a successful spend. -/
theorem spendInputs_spent_none {g : Nat → Nat → Bool} {m h : Nat}
    {is : List TxIn} {v v2 : UtxoView} {es : List UtxoEntry} {s : Nat}
    (hc : spendInputs g m h v is = .ok (v2, es, s)) :
    ∀ i ∈ is, v2 i.prevOut = none := by
  induction is generalizing v es s with
  | nil => intro i hi; cases hi
  | cons i is ih =>
    obtain ⟨e, v1, es1, s1, h1, h2, rfl, rfl⟩ := spendInputs_cons hc
    obtain ⟨-, rfl⟩ := spendInput_char h1
    intro j hj
    rcases List.mem_cons.mp hj with rfl | hj
    · exact spendInputs_none_mono h2 (by rw [if_pos rfl])
    · exact ih h2 j hj

/-- Connecting a transaction then disconnecting it with the returned undo
journal restores the original view (the transaction's outputs being fresh
in that view). -/
theorem connect_then_disconnect {g : Nat → Nat → Bool} {m : Nat}
    {v : UtxoView} {tx : Tx} {h : Nat} {v1 : UtxoView}
    {undo : List UtxoEntry} {fee : Nat}
    (hfresh : ∀ j, j < tx.outputs.length → v (tx.txid, j) = none)
    (hc : connectTransaction g m v tx h false = .ok (v1, undo, fee)) :
    disconnectTransaction v1 tx undo = v := by
  obtain ⟨vs, sIn, hs, hle, hfee, rfl⟩ := connectTransaction_char hc
  funext o
  unfold disconnectTransaction
  by_cases hspent : ∃ i ∈ tx.inputs, i.prevOut = o
  · exact (restoreInputs_char hs _ o).1 hspent
  · have hni : ∀ i ∈ tx.inputs, i.prevOut ≠ o :=
      fun k hk hke => hspent ⟨k, hk, hke⟩
    rw [(restoreInputs_char hs _ o).2 hni]
    by_cases hout : o.1 = tx.txid ∧ o.2 < tx.outputs.length
    · rw [if_pos hout]
      have h4 := hfresh o.2 hout.2
      rw [← hout.1, Prod.mk.eta] at h4
      exact h4.symm
    · rw [if_neg hout, addOutputs_off hout, spendInputs_unspent hs hni]

/-- Reconnecting after a disconnect reproduces the connected view, undo
journal and fee. -/
theorem disconnect_then_connect {g : Nat → Nat → Bool} {m : Nat}
    {v : UtxoView} {tx : Tx} {h : Nat} {v1 : UtxoView}
    {undo : List UtxoEntry} {fee : Nat}
    (hfresh : ∀ j, j < tx.outputs.length → v (tx.txid, j) = none)
    (hc : connectTransaction g m v tx h false = .ok (v1, undo, fee)) :
    connectTransaction g m (disconnectTransaction v1 tx undo) tx h false =
      .ok (v1, undo, fee) := by
  rw [connect_then_disconnect hfresh hc]
  exact hc

/-- An entry present after adding outputs was present before or is one of
the added outputs. -/
theorem addOutputs_some_src {txid : Hash} {cb : Bool} {h : Nat}
    {outs : List TxOut} {v : UtxoView} {o : Outpoint} {e : UtxoEntry}
    (hsome : addOutputs txid cb h outs v o = some e) :
    v o = some e ∨ (o.1 = txid ∧ o.2 < outs.length) := by
  unfold addOutputs at hsome
  by_cases h1 : o.1 = txid
  · rw [if_pos h1] at hsome
    cases hg : outs[o.2]? with
    | some t0 =>
      refine .inr ⟨h1, ?_⟩
      by_contra hlen
      rw [List.getElem?_eq_none (not_lt.mp hlen)] at hg
      exact Option.noConfusion hg
    | none =>
      rw [hg] at hsome
      exact .inl hsome
  · rw [if_neg h1] at hsome
    exact .inl hsome

/-- An entry present after a spend was present before it. -/
theorem spendInputs_some_src {g : Nat → Nat → Bool} {m h : Nat}
    {is : List TxIn} {v v2 : UtxoView} {es : List UtxoEntry} {s : Nat}
    {o : Outpoint} {e : UtxoEntry}
    (hc : spendInputs g m h v is = .ok (v2, es, s)) (hsome : v2 o = some e) :
    v o = some e := by
  by_cases hsp : ∃ i ∈ is, i.prevOut = o
  · obtain ⟨i, hi, rfl⟩ := hsp
    rw [spendInputs_spent_none hc i hi] at hsome
    exact Option.noConfusion hsome
  · have h1 := spendInputs_unspent hc (fun i hi hie => hsp ⟨i, hi, hie⟩)
    exact h1 ▸ hsome

/-- An entry present after connecting a transaction was present before or
is one of the transaction's outputs. -/
theorem connectTransaction_some_src {g : Nat → Nat → Bool} {m : Nat}
    {v : UtxoView} {tx : Tx} {h : Nat} {cb : Bool} {v1 : UtxoView}
    {undo : List UtxoEntry} {fee : Nat} {o : Outpoint} {e : UtxoEntry}
    (hc : connectTransaction g m v tx h cb = .ok (v1, undo, fee))
    (hsome : v1 o = some e) :
    v o = some e ∨ (o.1 = tx.txid ∧ o.2 < tx.outputs.length) := by
  cases cb with
  | true =>
    unfold connectTransaction at hc
    rw [if_pos rfl] at hc
    simp only [Except.ok.injEq, Prod.mk.injEq] at hc
    obtain ⟨h1, -, -⟩ := hc
    rw [← h1] at hsome
    exact addOutputs_some_src hsome
  | false =>
    obtain ⟨vs, sIn, hs, -, -, rfl⟩ := connectTransaction_char hc
    rcases addOutputs_some_src hsome with hvs | hout
    · exact .inl (spendInputs_some_src hs hvs)
    · exact .inr hout

/-- Decomposition of a successful connect of a nonempty transaction list. -/
theorem connectTxsFrom_cons {g : Nat → Nat → Bool} {m h : Nat}
    {v : UtxoView} {tx : Tx} {rest : List Tx} {v2 : UtxoView} {fees : Nat}
    (hc : connectTxsFrom g m h v (tx :: rest) = .ok (v2, fees)) :
    ∃ v1 u f fs, connectTransaction g m v tx h false = .ok (v1, u, f) ∧
      connectTxsFrom g m h v1 rest = .ok (v2, fs) ∧ fees = f + fs := by
  unfold connectTxsFrom at hc
  split at hc
  · exact Except.noConfusion hc
  · next v1 u f h1 =>
    split at hc
    · exact Except.noConfusion hc
    · next v2x fsx h2 =>
      simp only [Except.ok.injEq, Prod.mk.injEq] at hc
      obtain ⟨rfl, rfl⟩ := hc
      exact ⟨v1, u, f, fsx, h1, h2, rfl⟩

/-- An entry present after connecting a transaction list was present
before or was created by one of the listed transactions. -/
theorem connectTxsFrom_some_src {g : Nat → Nat → Bool} {m h : Nat}
    {txs : List Tx} {v v2 : UtxoView} {fees : Nat} {o : Outpoint} {e : UtxoEntry}
    (hc : connectTxsFrom g m h v txs = .ok (v2, fees)) (hsome : v2 o = some e) :
    v o = some e ∨ ∃ tx ∈ txs, o.1 = tx.txid ∧ o.2 < tx.outputs.length := by
  induction txs generalizing v fees with
  | nil =>
    unfold connectTxsFrom at hc
    simp only [Except.ok.injEq, Prod.mk.injEq] at hc
    exact .inl (hc.1.symm ▸ hsome)
  | cons tx rest ih =>
    obtain ⟨v1, u, f, fs, h1, h2, -⟩ := connectTxsFrom_cons hc
    rcases ih h2 with hv1 | ⟨tx2, htx2, hout⟩
    · rcases connectTransaction_some_src h1 hv1 with hv | hout
      · exact .inl hv
      · exact .inr ⟨tx, List.mem_cons_self tx rest, hout⟩
    · exact .inr ⟨tx2, List.mem_cons_of_mem tx htx2, hout⟩

/-- An entry present after connecting a block was present before or was
created by one of the block's transactions. -/
theorem connectBlock_some_src {P : ChainParams} {g : Nat → Nat → Bool}
    {v : UtxoView} {B : Block} {v2 : UtxoView} {o : Outpoint} {e : UtxoEntry}
    (hc : connectBlock P g v B = .ok v2) (hsome : v2 o = some e) :
    v o = some e ∨ ∃ tx ∈ B.txs, o.1 = tx.txid ∧ o.2 < tx.outputs.length := by
  unfold connectBlock at hc
  split at hc
  · exact Except.noConfusion hc
  · next cb rest htxs =>
    split at hc
    · exact Except.noConfusion hc
    · next v2x fees h1 =>
      split at hc
      · simp only [Except.ok.injEq] at hc
        subst hc
        rcases connectTxsFrom_some_src h1 hsome with hadd | ⟨tx, htx, hout⟩
        · rcases addOutputs_some_src hadd with hv | hout
          · exact .inl hv
          · exact .inr ⟨cb, by rw [htxs]; exact List.mem_cons_self cb rest, hout⟩
        · exact .inr ⟨tx, by rw [htxs]; exact List.mem_cons_of_mem cb htx, hout⟩
      · exact Except.noConfusion hc

/-- Decomposition of a successful connect along a nonempty chain. -/
theorem utxoAlong_cons {P : ChainParams} {g : Nat → Nat → Bool}
    {v : UtxoView} {b : Block} {rest : List Block} {vf : UtxoView}
    (hc : utxoAlong P g v (b :: rest) = .ok vf) :
    ∃ v1, connectBlock P g v b = .ok v1 ∧ utxoAlong P g v1 rest = .ok vf := by
  unfold utxoAlong at hc
  split at hc
  · exact Except.noConfusion hc
  · next v1 h1 => exact ⟨v1, h1, hc⟩

/-- An entry present after connecting a chain was present in the base view
or was created by a transaction of a block on the chain. -/
theorem utxoAlong_some_src {P : ChainParams} {g : Nat → Nat → Bool}
    {chain : List Block} {v vf : UtxoView} {o : Outpoint} {e : UtxoEntry}
    (hc : utxoAlong P g v chain = .ok vf) (hsome : vf o = some e) :
    v o = some e ∨
    ∃ b ∈ chain, ∃ tx ∈ b.txs, o.1 = tx.txid ∧ o.2 < tx.outputs.length := by
  induction chain generalizing v with
  | nil =>
    unfold utxoAlong at hc
    simp only [Except.ok.injEq] at hc
    exact .inl (hc.symm ▸ hsome)
  | cons b rest ih =>
    obtain ⟨v1, h1, h2⟩ := utxoAlong_cons hc
    rcases ih h2 with hv1 | ⟨b2, hb2, hout⟩
    · rcases connectBlock_some_src h1 hv1 with hv | ⟨tx, htx, hout⟩
      · exact .inl hv
      · exact .inr ⟨b, List.mem_cons_self b rest, tx, htx, hout⟩
    · exact .inr ⟨b2, List.mem_cons_of_mem b hb2, hout⟩

/-- Every entry of a view rebuilt from the empty set along a chain was
created by a transaction of a block on that chain. -/
theorem utxoAlong_empty_created {P : ChainParams} {g : Nat → Nat → Bool}
    {chain : List Block} {vf : UtxoView} {o : Outpoint} {e : UtxoEntry}
    (hc : utxoAlong P g emptyUtxoView chain = .ok vf) (hsome : vf o = some e) :
    ∃ b ∈ chain, ∃ tx ∈ b.txs, o.1 = tx.txid ∧ o.2 < tx.outputs.length := by
  rcases utxoAlong_some_src hc hsome with hv | hcreated
  · exact Option.noConfusion hv
  · exact hcreated

/-- C6: UTXO disconnect and connect are mutually inverse — disconnecting a
connected transaction with its undo journal restores the original view and
reconnecting reproduces the connected view — and after any acceptance
(in particular a reorganization to a heavier tip) the committed UTXO view
is exactly the one rebuilt from the empty set along the selected ancestry,
so every entry present was created by a transaction on that ancestry and
every output spendable only via a displaced path is absent. -/
theorem utxo_connect_disconnect_inverse :
    (∀ (g : Nat → Nat → Bool) (m : Nat) (v : UtxoView) (tx : Tx) (h : Nat)
        (v1 : UtxoView) (undo : List UtxoEntry) (fee : Nat),
      (∀ j, j < tx.outputs.length → v (tx.txid, j) = none) →
      connectTransaction g m v tx h false = .ok (v1, undo, fee) →
      disconnectTransaction v1 tx undo = v ∧
      connectTransaction g m (disconnectTransaction v1 tx undo) tx h false =
        .ok (v1, undo, fee)) ∧
    (∀ (P : ChainParams) (verify : Nat → Nat → Bool) (cache : List (Nat × Nat))
        (t : Nat) (s s2 : DagState) (B : Block) (r : Outcome),
      processBlock P verify cache t s B = (s2, r) →
      alookup s.index B.hash = none →
      (r = .acceptedMain ∨ r = .acceptedSide) →
      utxoAlong P (checkSigWithCache verify cache) emptyUtxoView
        (viewBlocks s2.index s2.mainView) = .ok s2.utxo ∧
      (∀ o e, s2.utxo o = some e →
        ∃ b ∈ viewBlocks s2.index s2.mainView, ∃ tx ∈ b.txs,
          o.1 = tx.txid ∧ o.2 < tx.outputs.length)) := by
  constructor
  · intro g m v tx h v1 undo fee hfresh hc
    exact ⟨connect_then_disconnect hfresh hc, disconnect_then_connect hfresh hc⟩
  · intro P verify cache t s s2 B r h hdup hacc
    unfold processBlock at h
    rcases pb_cases P (checkSigWithCache verify cache) t s B with
      ⟨e, heq⟩ | ⟨heq, -, -, -⟩ | ⟨n, hl2, -, -⟩ | ⟨v1, -, -, -, -, hv, heq⟩
    · rw [heq] at h
      injection h with h1 h2
      rcases hacc with ha | ha <;> rw [← h2] at ha <;> exact Outcome.noConfusion ha
    · rw [heq] at h
      injection h with h1 h2
      rcases hacc with ha | ha <;> rw [← h2] at ha <;> exact Outcome.noConfusion ha
    · rw [hdup] at hl2
      exact Option.noConfusion hl2
    · rw [heq] at h
      injection h with h1 h2
      subst h1
      refine ⟨hv, fun o e hsome => ?_⟩
      exact utxoAlong_empty_created hv hsome

/-- Witness for C6: the concrete spend of `(11, 0)` disconnects back to the
base view and reconnects to the same result. -/
theorem utxo_connect_disconnect_inverse_witness :
    disconnectTransaction vAfter spendTx [⟨50, 1, false, 0⟩] = vBase ∧
    connectTransaction verifyAll 2
        (disconnectTransaction vAfter spendTx [⟨50, 1, false, 0⟩])
        spendTx 1 false = .ok (vAfter, [⟨50, 1, false, 0⟩], 10) := by
  have hc : connectTransaction verifyAll 2 vBase spendTx 1 false =
      .ok (vAfter, [⟨50, 1, false, 0⟩], 10) := rfl
  have hfresh : ∀ j, j < spendTx.outputs.length → vBase (spendTx.txid, j) = none := by
    intro j hj
    have hj0 : j = 0 := Nat.lt_one_iff.mp hj
    subst hj0
    rfl
  exact utxo_connect_disconnect_inverse.1 verifyAll 2 vBase spendTx 1 vAfter
    [⟨50, 1, false, 0⟩] 10 hfresh hc

/-- Witness for C3: resubmitting the concrete genesis is a no-op with the
same outcome, and its hash occurs at most once in the index. -/
theorem processBlock_idempotent_witness :
    (processBlock P0 verifyAll [] 0 (processBlock P0 verifyAll [] 0 s0 G0).1 G0).2 =
      (processBlock P0 verifyAll [] 0 s0 G0).2 ∧
    countKeys (processBlock P0 verifyAll [] 0 s0 G0).1.index G0.hash ≤ 1 := by
  have h := processBlock_idempotent P0 verifyAll [] 0 s0 G0 (by decide)
  exact ⟨h.1, h.2.2.2⟩

/-- C10: the block-identifying hash is computed from at most the first 80
bytes of the raw block — for raw blocks of length at least 80, any
modification beyond position 80 (for example to the transaction bodies)
leaves the double-SHA256 identifying hash unchanged. -/
theorem blockIdentHash_header_only (r1 r2 : List Nat)
    (h1 : 80 ≤ r1.length) (h2 : 80 ≤ r2.length)
    (hpre : r1.take 80 = r2.take 80) :
    blockIdentHash r1 = blockIdentHash r2 := by
  have key : ∀ r : List Nat, 80 ≤ r.length →
      blockIdentHash r = doubleHashH (r.take 80) := by
    intro r hr
    unfold blockIdentHash headerLenOf
    by_cases hlt : r.length > 80
    · rw [if_pos hlt]
    · have heq : r.length = 80 := Nat.le_antisymm (Nat.not_lt.mp hlt) hr
      rw [if_neg hlt, heq]
  rw [key r1 h1, key r2 h2, hpre]

/-- Witness for C10: two concrete raw blocks sharing their first 80 bytes
but differing beyond them have the same identifying hash. -/
theorem blockIdentHash_header_only_witness :
    blockIdentHash (List.replicate 85 0) =
      blockIdentHash (List.replicate 80 0 ++ [1, 2, 3, 4, 5]) := by
  apply blockIdentHash_header_only
  · decide
  · decide
  · decide
